import Mathlib

/-!
Verification development for the field-validation and field-stepping engine
of the Rex transaction editor (`src/utility/traits/verifier.rs` and
`src/utility/traits/stepper.rs`).

Modelling conventions:
* Rust `String` buffers are lists of characters (`Str`); each validator or
  stepper takes the buffer and returns its outcome together with the buffer
  as left behind by the call (Rust mutates the buffer in place).
* The external store (`get_all_tx_methods`, `get_all_tags`) and the fuzzy
  matcher (`get_best_match`) live outside `src`; per the spec they are
  injected read-only collaborators, so they are explicit parameters here.
* Rust `f64` arithmetic is modelled by exact unnormalised rationals
  (`Q`, an integer numerator over a positive natural denominator); division
  by zero produces the literal `"inf"`/`"NaN"` strings exactly as Rust's
  `format!` would, and `format!("{:.2}", x)` is modelled by exact
  round-half-to-even at two decimals.  Binary rounding error of `f64` is
  not modelled; no claim depends on it.
* `char::is_numeric`, `str::trim` and lowercasing are modelled on ASCII
  (digits `0`-`9`, whitespace ` \t\n\r`, letters `A`-`Z`), matching every
  input the claims mention.
* `chrono::NaiveDate` is modelled from its documented behaviour: a
  `%Y-%m-%d` parse succeeds exactly on real proleptic-Gregorian calendar
  dates, and `Display` zero-pads to `YYYY-MM-DD`.
-/

namespace Rex

abbrev Str := List Char

/-- Field kind. Modelled from the spec: the `AType` enum lives in the
outputs module outside `src`; its variants are fixed by the verifier's uses. -/
inductive AType
  | Date | Amount | TxMethod | TxType | Tags
deriving DecidableEq

/-- Rejection reason. Modelled from the spec: the `NAType` enum lives in the
outputs module outside `src`; its variants are fixed by the verifier's uses. -/
inductive NAType
  | ParsingError (k : AType)
  | InvalidDate | InvalidYear | InvalidMonth | InvalidDay
  | YearTooBig | MonthTooBig | DayTooBig | NonExistingDate
  | AmountBelowZero | InvalidTxMethod | InvalidTxType | NonExistingTag
deriving DecidableEq

/-- Verification outcome. Modelled from the spec: tri-state outcome carrying
the field kind; `Nothing` is the empty-buffer case. -/
inductive VerifyingOutput
  | Accepted (k : AType)
  | NotAccepted (e : NAType)
  | Nothing (k : AType)
deriving DecidableEq

/-- Step direction. Modelled from the spec: the `StepType` enum lives outside
`src`; `StepUp` is Increase, `StepDown` is Decrease. -/
inductive StepType
  | StepUp | StepDown
deriving DecidableEq

/-- Stepping failure (`src/outputs/error.rs`). -/
inductive SteppingError
  | InvalidDate | InvalidTxMethod | InvalidAmount | InvalidTxType | InvalidTags | UnknownBValue
deriving DecidableEq

/-! ## Character classes and basic string operations -/

/-- The four calculation symbols of `verify_amount`. -/
def isCalc (c : Char) : Bool := c == '*' || c == '/' || c == '+' || c == '-'

/-- The three symbols that are never re-introduced by a replacement (used to
show the arithmetic loop consumes every `+` before its passes run out). -/
def isHi (c : Char) : Bool := c == '*' || c == '/' || c == '+'

/-- Characters kept by the amount filter (digits, dot, calculation symbols). -/
def isAmountChar (c : Char) : Bool := c.isDigit || c == '.' || isCalc c

/-- Characters kept by the date filter (digits and dash). -/
def isDateChar (c : Char) : Bool := c.isDigit || c == '-'

/-- Rust whitespace for `str::trim`, restricted to ASCII. -/
def wsC (c : Char) : Bool := c == ' ' || c == '\t' || c == '\n' || c == '\r'

/-- `str::trim`: drop whitespace from both ends. -/
def trimC (s : Str) : Str := ((s.dropWhile wsC).reverse.dropWhile wsC).reverse

/-- ASCII lowercasing of one character (model of `to_lowercase` /
`to_ascii_lowercase` on the ASCII inputs this program handles). -/
def toLowerC (c : Char) : Char :=
  if h : 65 ≤ c.toNat ∧ c.toNat ≤ 90 then
    Char.ofNatAux (c.toNat + 32) (Or.inl (by omega))
  else c

/-- Lowercase an entire string. -/
def lowerS (s : Str) : Str := s.map toLowerC

/-- Split a string on a separator character; mirrors Rust `str::split`
including the empty segments it produces. -/
def splitOnC (c : Char) : Str → List Str
  | [] => [[]]
  | a :: rest =>
    if a == c then [] :: splitOnC c rest
    else
      match splitOnC c rest with
      | [] => [[a]]
      | h :: t => (a :: h) :: t

/-- Does `pat` start the string `s`? -/
def leadsWith : Str → Str → Bool
  | [], _ => true
  | _ :: _, [] => false
  | a :: as, b :: bs => a == b && leadsWith as bs

/-- Fuel-driven worker for `replaceAll`; fuel at least the string length is
always enough, since every step consumes at least one character. -/
def replaceAllAux : Nat → Str → Str → Str → Str
  | 0, s, _, _ => s
  | fuel + 1, s, pat, rep =>
    match s with
    | [] => []
    | c :: rest =>
      if pat ≠ [] ∧ leadsWith pat (c :: rest) = true then
        rep ++ replaceAllAux fuel ((c :: rest).drop pat.length) pat rep
      else
        c :: replaceAllAux fuel rest pat rep

/-- Rust `str::replace`: replace every non-overlapping occurrence of `pat`
(left to right) by `rep`.  The callers always pass a non-empty pattern. -/
def replaceAll (s pat rep : Str) : Str := replaceAllAux s.length s pat rep

/-- Rust `str::find` for a single character: index of its first occurrence. -/
def findSym (c : Char) : Str → Option Nat
  | [] => none
  | a :: rest => if a == c then some 0 else (findSym c rest).map (· + 1)

/-- Decimal digits of a natural number (fuel-driven helper). -/
def natToStrAux : Nat → Nat → Str
  | 0, _ => []
  | fuel + 1, n =>
    if n < 10 then [Nat.digitChar n]
    else natToStrAux fuel (n / 10) ++ [Nat.digitChar (n % 10)]

/-- Decimal representation of a natural number. -/
def natToStr (n : Nat) : Str := natToStrAux (n + 1) n

/-- Numeric value of a digit string (as `fold` over decimal digits). -/
def natVal (s : Str) : Nat := s.foldl (fun a c => 10 * a + (c.toNat - 48)) 0

/-- Rust `str::parse::<u32>` on the digit-only strings the date code feeds
it: every character must be a digit and the value must fit in 32 bits. -/
def parseU32 (s : Str) : Option Nat :=
  if s ≠ [] ∧ s.all Char.isDigit then
    if natVal s ≤ 4294967295 then some (natVal s) else none
  else none

/-! ## Exact rationals standing in for `f64` -/

/-- Unnormalised rational: integer numerator over a natural denominator.
Every value the program builds has a positive denominator. -/
structure Q where
  num : Int
  den : Nat
deriving DecidableEq

def qAdd (a b : Q) : Q := ⟨a.num * b.den + b.num * a.den, a.den * b.den⟩

def qSub (a b : Q) : Q := ⟨a.num * b.den - b.num * a.den, a.den * b.den⟩

def qMul (a b : Q) : Q := ⟨a.num * b.num, a.den * b.den⟩

/-- Division; callers guard against a zero divisor. -/
def qDiv (a b : Q) : Q :=
  if 0 ≤ b.num then ⟨a.num * b.den, a.den * b.num.natAbs⟩
  else ⟨-(a.num * b.den), a.den * b.num.natAbs⟩

/-- Comparison `a ≤ b` by cross multiplication (sound for positive
denominators, which all program values have). -/
def qLe (a b : Q) : Prop := a.num * b.den ≤ b.num * a.den

instance (a b : Q) : Decidable (qLe a b) := by unfold qLe; infer_instance

/-- Round `q` to an integer number of hundredths, ties to even — the
rounding `format!("{:.2}", …)` applies. -/
def round2even (q : Q) : Int :=
  let m := q.num * 100
  let d : Int := q.den
  let n := Int.fdiv m d
  let r2 := 2 * (m - n * d)
  if r2 < d then n else if d < r2 then n + 1 else if n % 2 = 0 then n else n + 1

/-- Left-pad with `0` to two digits (for the fractional part). -/
def frac2 (n : Nat) : Str := if n < 10 then '0' :: natToStr n else natToStr n

/-- Model of `format!("{:.2}", q)`: sign, integer part, dot, two fractional
digits. -/
def fmt2 (q : Q) : Str :=
  let n := round2even q
  let a := n.natAbs
  (if q.num < 0 then ['-'] else []) ++ natToStr (a / 100) ++ '.' :: frac2 (a % 100)

/-- Model of `str::parse::<f64>` on sign-free input: digit run, optionally a
dot and a digit run, at least one digit in total. -/
def parseUq (s : Str) : Option Q :=
  let ip := s.takeWhile Char.isDigit
  match s.dropWhile Char.isDigit with
  | [] => if ip = [] then none else some ⟨natVal ip, 1⟩
  | c :: fp =>
    if c = '.' ∧ fp.all Char.isDigit ∧ (ip ≠ [] ∨ fp ≠ []) then
      some ⟨natVal ip * (10 ^ fp.length : Nat) + natVal fp, 10 ^ fp.length⟩
    else none

/-- Model of `str::parse::<f64>`: optional sign, then an unsigned decimal
number (exponents and the textual `inf`/`NaN` forms never reach this point
with a successful parse in the flows under study). -/
def parseF (s : Str) : Option Q :=
  match s with
  | '+' :: r => parseUq r
  | '-' :: r => (parseUq r).map (fun q => ⟨-q.num, q.den⟩)
  | _ => parseUq s

/-! ## Amount validator (`verify_amount`) -/

def notCalc (c : Char) : Bool := !(isCalc c)

/-- One arithmetic step: compute `first <sym> last` (or the surviving side)
and substitute.  `"inf"`/`"NaN"` mirror `format!` on a division by zero. -/
def applySym (sym : Char) (a b : Q) : Str :=
  if sym == '*' then fmt2 (qMul a b)
  else if sym == '/' then
    (if b.num = 0 then (if a.num = 0 then "NaN".data else "inf".data) else fmt2 (qDiv a b))
  else if sym == '+' then fmt2 (qAdd a b)
  else if sym == '-' then fmt2 (qSub a b)
  else []

/-- First calculation symbol of the working string in the fixed priority
order `* / + -`, with its index (the inner `for symbol in &calc_symbols`
loop of `verify_amount`). -/
def findFirstSym (w : Str) : Option (Char × Nat) :=
  match findSym '*' w with
  | some l => some ('*', l)
  | none =>
    match findSym '/' w with
    | some l => some ('/', l)
    | none =>
      match findSym '+' w with
      | some l => some ('+', l)
      | none =>
        match findSym '-' w with
        | some l => some ('-', l)
        | none => none

/-- One iteration of the outer evaluation loop of `verify_amount`: locate the
highest-priority symbol, read the maximal numeric runs on each side, compute,
and replace the matched substring.  `Except.error` is the in-loop operand
parse failure (returned as a `ParsingError`). -/
def evalPass (w : Str) : Except Unit Str :=
  match findFirstSym w with
  | none => .ok w
  | some (sym, loc) =>
    let lastv := (w.drop (loc + 1)).takeWhile notCalc
    let firstv := ((w.reverse.drop (w.length - loc)).takeWhile notCalc).reverse
    if firstv = [] ∨ lastv = [] then
      .ok (replaceAll w (firstv ++ sym :: lastv) (if firstv = [] then lastv else firstv))
    else
      match parseF firstv, parseF lastv with
      | some a, some b => .ok (replaceAll w (firstv ++ sym :: lastv) (applySym sym a b))
      | _, _ => .error ()

/-- The outer evaluation loop, run once per symbol occurrence. -/
def evalLoop : Nat → Str → Except Unit Str
  | 0, w => .ok w
  | n + 1, w =>
    match evalPass w with
    | .ok w1 => evalLoop n w1
    | .error e => .error e

/-- Decimal-point normalisation: append `00` after a trailing dot, append
`.00` when no dot is present. -/
def dotNorm (w : Str) : Str :=
  if w.contains '.' then
    (if (splitOnC '.' w).getD 1 [] = [] then w ++ ['0', '0'] else w)
  else w ++ ['.', '0', '0']

/-- Everything `verify_amount` does after the arithmetic loop: decimal
normalisation, float parse, sign check, exactly-two-fractional-digits fixup,
ten-character integer-part cap. -/
def amountTail (w : Str) : VerifyingOutput × Str :=
  let s3 := dotNorm w
  match parseF s3 with
  | none => (.NotAccepted (.ParsingError .Amount), s3)
  | some v =>
    if v.num ≤ 0 then
      (.NotAccepted .AmountBelowZero, fmt2 (qSub v (qMul v ⟨2, 1⟩)))
    else
      let s4 :=
        if s3.contains '.' then
          (let fp := (splitOnC '.' s3).getD 1 []
           if fp.length < 2 then s3 ++ ['0']
           else if 2 < fp.length then (splitOnC '.' s3).getD 0 [] ++ '.' :: fp.take 2
           else s3)
        else s3
      let ip := (splitOnC '.' s4).getD 0 []
      let s5 := if 10 < ip.length then ip.take 10 ++ '.' :: (splitOnC '.' s4).getD 1 [] else s4
      (.Accepted .Amount, s5)

/-- `DataVerifier::verify_amount`. -/
def verify_amount (s : Str) : VerifyingOutput × Str :=
  if s = [] then (.Nothing .Amount, s)
  else
    let f := s.filter isAmountChar
    if f = [] then (.NotAccepted (.ParsingError .Amount), f)
    else if f.any isCalc then
      match evalLoop (f.filter isCalc).length f with
      | .error _ => (.NotAccepted (.ParsingError .Amount), f)
      | .ok w => amountTail w
    else amountTail f

/-! ## Date validator (`verify_date`) -/

def isLeap (y : Nat) : Bool := y % 4 == 0 && (y % 100 != 0 || y % 400 == 0)

def daysInMonth (y m : Nat) : Nat :=
  if m == 2 then (if isLeap y then 29 else 28)
  else if m == 4 || m == 6 || m == 9 || m == 11 then 30
  else 31

/-- Model of `NaiveDate::parse_from_str(s, "%Y-%m-%d")` on the canonical
strings this program produces: three dash-separated digit runs forming a
real calendar date. -/
def parseDate (s : Str) : Option (Nat × Nat × Nat) :=
  match splitOnC '-' s with
  | [ys, ms, ds] =>
    if ys ≠ [] ∧ ys.all Char.isDigit ∧ ms ≠ [] ∧ ms.all Char.isDigit
        ∧ ds ≠ [] ∧ ds.all Char.isDigit then
      let y := natVal ys
      let m := natVal ms
      let d := natVal ds
      if 1 ≤ m ∧ m ≤ 12 ∧ 1 ≤ d ∧ d ≤ daysInMonth y m then some (y, m, d) else none
    else none
  | _ => none

/-- Everything `verify_date` does after filtering: split, parse the three
parts as `u32`, run the length/range checks in order (each with its partial
auto-correction), then the real-calendar-date check. -/
def dateCore (f : Str) : VerifyingOutput × Str :=
  let parts := splitOnC '-' f
  if parts.length ≠ 3 then (.NotAccepted .InvalidDate, "2022-01-01".data)
  else
    let ys := parts.getD 0 []
    let ms := parts.getD 1 []
    let ds := parts.getD 2 []
    match parseU32 ys, parseU32 ms, parseU32 ds with
    | some y, some m, some d =>
      if ys.length ≠ 4 then
        (.NotAccepted .InvalidYear,
          if ys.length < 4 then "2022".data ++ '-' :: ms ++ '-' :: ds
          else ys.take 4 ++ '-' :: ms ++ '-' :: ds)
      else if ms.length ≠ 2 then
        (.NotAccepted .InvalidMonth,
          if m < 10 then ys ++ '-' :: '0' :: natToStr m ++ '-' :: ds
          else if 12 < m then ys ++ '-' :: '1' :: '2' :: '-' :: ds
          else f)
      else if ds.length ≠ 2 then
        (.NotAccepted .InvalidDay,
          if d < 10 then ys ++ '-' :: ms ++ '-' :: '0' :: natToStr d
          else if 31 < d then ys ++ '-' :: ms ++ '-' :: '3' :: '1' :: []
          else f)
      else if ¬ (2022 ≤ y ∧ y ≤ 2037) then
        (.NotAccepted .YearTooBig,
          if y < 2022 then "2022".data ++ '-' :: ms ++ '-' :: ds
          else if 2037 < y then "2037".data ++ '-' :: ms ++ '-' :: ds
          else f)
      else if ¬ (1 ≤ m ∧ m ≤ 12) then
        (.NotAccepted .MonthTooBig,
          if m < 1 then ys ++ '-' :: '0' :: '1' :: '-' :: ds
          else if 12 < m then ys ++ '-' :: '1' :: '2' :: '-' :: ds
          else f)
      else if ¬ (1 ≤ d ∧ d ≤ 31) then
        (.NotAccepted .DayTooBig,
          if d < 1 then ys ++ '-' :: ms ++ '-' :: '0' :: '1' :: []
          else if 31 < d then ys ++ '-' :: ms ++ '-' :: '3' :: '1' :: []
          else f)
      else
        match parseDate f with
        | some _ => (.Accepted .Date, f)
        | none => (.NotAccepted .NonExistingDate, f)
    | _, _, _ => (.NotAccepted (.ParsingError .Date), f)

/-- `DataVerifier::verify_date`. -/
def verify_date (s : Str) : VerifyingOutput × Str :=
  if s = [] then (.Nothing .Date, s)
  else dateCore (s.filter isDateChar)

/-! ## Transaction-method validator (`verify_tx_method`) -/

/-- The case-insensitive scan over the store's method list (first match wins). -/
def scanMethods (t : Str) : List Str → Option Str
  | [] => none
  | m :: rest => if lowerS m = lowerS t then some m else scanMethods t rest

/-- `DataVerifier::verify_tx_method`; the store's method list and the fuzzy
matcher `get_best_match` are the injected collaborators of the spec. -/
def verify_tx_method (methods : List Str) (bestMatch : Str → List Str → Str)
    (s : Str) : VerifyingOutput × Str :=
  let t := trimC s
  if t = [] then (.Nothing .TxMethod, t)
  else
    match scanMethods t methods with
    | some m => (.Accepted .TxMethod, m)
    | none => (.NotAccepted .InvalidTxMethod, bestMatch t methods)

/-! ## Transaction-type validator (`verify_tx_type`) -/

/-- The fixed transaction-type vocabulary in stepping order. -/
def txTypes : List Str := ["Income".data, "Expense".data, "Transfer".data]

/-- `DataVerifier::verify_tx_type`. -/
def verify_tx_type (s : Str) : VerifyingOutput × Str :=
  let t := s.filter (fun c => c != ' ')
  if t = [] then (.Nothing .TxType, t)
  else if toLowerC (t.headD ' ') == 'e' then (.Accepted .TxType, "Expense".data)
  else if toLowerC (t.headD ' ') == 'i' then (.Accepted .TxType, "Income".data)
  else if toLowerC (t.headD ' ') == 't' then (.Accepted .TxType, "Transfer".data)
  else (.NotAccepted .InvalidTxType, [])

/-! ## Tags validators (`verify_tags`, `verify_tags_forced`) -/

/-- Comma-split, trim each token, drop the empty ones. -/
def tagTokens (s : Str) : List Str := ((splitOnC ',' s).map trimC).filter (fun t => t ≠ [])

/-- First-seen deduplication (the `HashSet`-guarded loop of `verify_tags`). -/
def dedupSeen (seen : List Str) : List Str → List Str
  | [] => []
  | x :: xs => if x ∈ seen then dedupSeen seen xs else x :: dedupSeen (x :: seen) xs

/-- `Vec::join(", ")`. -/
def joinCS : List Str → Str
  | [] => []
  | [t] => t
  | t :: ts => t ++ ',' :: ' ' :: joinCS ts

/-- `DataVerifier::verify_tags` (no outcome value; pure buffer rewrite). -/
def verify_tags (s : Str) : Str := joinCS (dedupSeen [] (tagTokens s))

/-- `DataVerifier::verify_tags_forced`; the store's tag list is the injected
collaborator. -/
def verify_tags_forced (allTags : List Str) (s : Str) : VerifyingOutput × Str :=
  if s = [] then (.Nothing .Tags, s)
  else
    let uniq := dedupSeen [] (tagTokens s)
    let kept := uniq.filter (fun t => allTags.contains t)
    if uniq.length = kept.length then (.Accepted .Tags, joinCS kept)
    else (.NotAccepted .NonExistingTag, joinCS kept)

/-! ## Steppers (`FieldStepper`) -/

/-- Successor calendar day. -/
def dateSucc : Nat × Nat × Nat → Nat × Nat × Nat
  | (y, m, d) =>
    if d < daysInMonth y m then (y, m, d + 1)
    else if m < 12 then (y, m + 1, 1)
    else (y + 1, 1, 1)

/-- Predecessor calendar day. -/
def datePred : Nat × Nat × Nat → Nat × Nat × Nat
  | (y, m, d) =>
    if 1 < d then (y, m, d - 1)
    else if 1 < m then (y, m - 1, daysInMonth y (m - 1))
    else (y - 1, 12, 31)

/-- Days in the months of year `y` strictly before month `m`. -/
def monthDaysBefore (y : Nat) : Nat → Nat
  | 0 => 0
  | m + 1 => if m = 0 then 0 else monthDaysBefore y m + daysInMonth y m

/-- Day number of a calendar date (rata die): an independent linear ordinal
used to state that stepping moves by exactly one day. -/
def rataDie : Nat × Nat × Nat → Nat
  | (y, m, d) =>
    365 * (y - 1) + (y - 1) / 4 + (y - 1) / 400 + monthDaysBefore y m + d - (y - 1) / 100

/-- `NaiveDate` display: `YYYY-MM-DD`, zero-padded. -/
def pad2 (n : Nat) : Str := if n < 10 then '0' :: natToStr n else natToStr n

def pad4 (n : Nat) : Str := List.replicate (4 - (natToStr n).length) '0' ++ natToStr n

def dateToStr : Nat × Nat × Nat → Str
  | (y, m, d) => pad4 y ++ '-' :: pad2 m ++ '-' :: pad2 d

/-- `FieldStepper::step_date`: validate, then move one day, clamped at
`2022-01-01` and `2037-12-31`. -/
def step_date (s : Str) (dir : StepType) : Option SteppingError × Str :=
  match verify_date s with
  | (.Accepted _, b) =>
    let t := (parseDate b).getD (2022, 1, 1)
    let t' :=
      match dir with
      | .StepUp => if t ≠ (2037, 12, 31) then dateSucc t else t
      | .StepDown => if t ≠ (2022, 1, 1) then datePred t else t
    (none, dateToStr t')
  | (.NotAccepted _, b) => (some .InvalidDate, b)
  | (.Nothing _, _) => (none, "2022-01-01".data)

/-- `FieldStepper::step_amount`: validate, then add or subtract `1.0`,
refusing to pass `9999999999.99` upward or `0.00` downward. -/
def step_amount (s : Str) (dir : StepType) : Option SteppingError × Str :=
  match verify_amount s with
  | (.Accepted _, b) =>
    let cur := (parseF b).getD ⟨0, 1⟩
    let cur' :=
      match dir with
      | .StepUp => if qLe (qAdd cur ⟨1, 1⟩) ⟨999999999999, 100⟩ then qAdd cur ⟨1, 1⟩ else cur
      | .StepDown => if qLe ⟨0, 1⟩ (qSub cur ⟨1, 1⟩) then qSub cur ⟨1, 1⟩ else cur
    (none, fmt2 cur')
  | (.NotAccepted e, b) =>
    (match e with
     | .AmountBelowZero =>
       (match dir with
        | .StepUp => (none, "1.00".data)
        | .StepDown => (none, b))
     | _ => (some .InvalidAmount, b))
  | (.Nothing _, _) => (none, "1.00".data)

/-- `FieldStepper::step_tx_type`: validate (which rewrites the buffer), then
default an empty buffer to `Income`, otherwise cycle through the fixed
vocabulary from the index derived from the buffer's first letter, failing
afterwards when the validation had rejected. -/
def step_tx_type (s : Str) (dir : StepType) : Option SteppingError × Str :=
  let r := verify_tx_type s
  if r.2 = [] then (none, "Income".data)
  else
    let c := toLowerC (r.2.headD ' ')
    let i : Nat := if c == 'i' then 0 else if c == 'e' then 1 else if c == 't' then 2 else 0
    let i' :=
      match dir with
      | .StepUp => (i + 1) % 3
      | .StepDown => (i + 3 - 1) % 3
    let b' := txTypes.getD i' []
    ((match r.1 with | .NotAccepted _ => some .InvalidTxType | _ => none), b')

/-! ## Derived predicates used by the statements and proofs -/

/-- The three properties every token produced by `tagTokens` enjoys:
non-empty, comma-free, and already trimmed. -/
def goodTok (t : Str) : Prop := t ≠ [] ∧ ',' ∉ t ∧ trimC t = t

/-! ## Helper lemmas: transaction type -/

theorem verify_tx_type_cases (s : Str) :
    verify_tx_type s = (.Nothing .TxType, []) ∨
    verify_tx_type s = (.Accepted .TxType, "Expense".data) ∨
    verify_tx_type s = (.Accepted .TxType, "Income".data) ∨
    verify_tx_type s = (.Accepted .TxType, "Transfer".data) ∨
    verify_tx_type s = (.NotAccepted .InvalidTxType, []) := by
  simp only [verify_tx_type]
  split_ifs with h0 h1 h2 h3 <;> simp_all <;> assumption

/-! ## Helper lemmas: splitting, trimming, tags -/

theorem splitOnC_ne_nil (c : Char) (s : Str) : splitOnC c s ≠ [] := by
  cases s with
  | nil => simp [splitOnC]
  | cons a rest =>
    simp only [splitOnC]
    split_ifs
    · simp
    · cases h : splitOnC c rest <;> simp

theorem splitOnC_cons_ne {c a : Char} (w : Str) (h : (a == c) = false) :
    splitOnC c (a :: w) =
      (a :: (splitOnC c w).headD []) :: (splitOnC c w).tail := by
  simp only [splitOnC, h, Bool.false_eq_true, if_false]
  cases hw : splitOnC c w with
  | nil => exact absurd hw (splitOnC_ne_nil c w)
  | cons x t => simp

theorem splitOnC_cons_eq {c a : Char} (w : Str) (h : (a == c) = true) :
    splitOnC c (a :: w) = [] :: splitOnC c w := by
  simp [splitOnC, h]

theorem splitOnC_sep_not_mem (c : Char) (s : Str) :
    ∀ seg ∈ splitOnC c s, c ∉ seg := by
  induction s with
  | nil => simp [splitOnC]
  | cons a rest ih =>
    by_cases hac : a == c
    · rw [splitOnC_cons_eq rest hac]
      intro seg hseg
      rcases List.mem_cons.mp hseg with rfl | hseg'
      · simp
      · exact ih seg hseg'
    · rw [splitOnC_cons_ne rest (by simpa using hac)]
      intro seg hseg
      rcases List.mem_cons.mp hseg with rfl | hseg'
      · cases hw : splitOnC c rest with
        | nil => exact absurd hw (splitOnC_ne_nil c rest)
        | cons x t =>
          have hx : c ∉ x := ih x (by rw [hw]; exact List.mem_cons_self x t)
          simp only [hw, List.headD_cons]
          intro hmem
          rcases List.mem_cons.mp hmem with rfl | hmem'
          · simp at hac
          · exact hx hmem'
      · cases hw : splitOnC c rest with
        | nil => exact absurd hw (splitOnC_ne_nil c rest)
        | cons x t =>
          rw [hw] at hseg'
          exact ih seg (by rw [hw]; exact List.mem_cons_of_mem x hseg')

theorem splitOnC_no_sep {c : Char} {u : Str} (h : c ∉ u) : splitOnC c u = [u] := by
  induction u with
  | nil => rfl
  | cons a rest ih =>
    have ha : (a == c) = false := by
      simp only [beq_eq_false_iff_ne, ne_eq]
      intro hac
      exact h (hac ▸ List.mem_cons_self a rest)
    rw [splitOnC_cons_ne rest ha, ih (fun hm => h (List.mem_cons_of_mem a hm))]
    simp

theorem splitOnC_append {c : Char} {u : Str} (v : Str) (h : c ∉ u) :
    splitOnC c (u ++ c :: v) = u :: splitOnC c v := by
  induction u with
  | nil => rw [List.nil_append, splitOnC_cons_eq v (beq_self_eq_true c)]
  | cons a rest ih =>
    have ha : (a == c) = false := by
      simp only [beq_eq_false_iff_ne, ne_eq]
      intro hac
      exact h (hac ▸ List.mem_cons_self a rest)
    have hrest : c ∉ rest := fun hm => h (List.mem_cons_of_mem a hm)
    rw [List.cons_append, splitOnC_cons_ne (rest ++ c :: v) ha, ih hrest]
    simp

theorem mem_of_mem_dropWhile {p : Char → Bool} {x : Char} {l : Str}
    (h : x ∈ l.dropWhile p) : x ∈ l := by
  induction l with
  | nil => simpa [List.dropWhile] using h
  | cons a rest ih =>
    rw [List.dropWhile_cons] at h
    split_ifs at h with hp
    · exact List.mem_cons_of_mem a (ih h)
    · exact h

theorem mem_of_mem_trimC {x : Char} {s : Str} (h : x ∈ trimC s) : x ∈ s := by
  unfold trimC at h
  rw [List.mem_reverse] at h
  have h2 := mem_of_mem_dropWhile h
  rw [List.mem_reverse] at h2
  exact mem_of_mem_dropWhile h2

theorem trimC_cons_ws {a : Char} (s : Str) (h : wsC a = true) :
    trimC (a :: s) = trimC s := by
  unfold trimC
  rw [List.dropWhile_cons, if_pos h]

theorem dropWhile_eq_self_of_head {p : Char → Bool} {l : Str}
    (h : ∀ (hl : l ≠ []), p (l.head hl) = false) : l.dropWhile p = l := by
  cases l with
  | nil => rfl
  | cons a rest =>
    have ha : p a = false := by simpa using h (by simp)
    rw [List.dropWhile_cons, if_neg (by simp [ha])]

theorem dropWhile_idem (p : Char → Bool) (l : Str) :
    (l.dropWhile p).dropWhile p = l.dropWhile p :=
  dropWhile_eq_self_of_head (fun hl => List.head_dropWhile_not p l hl)

theorem trimC_dropWhile (s : Str) : (trimC s).dropWhile wsC = trimC s := by
  have hA : (s.dropWhile wsC).dropWhile wsC = s.dropWhile wsC := dropWhile_idem wsC s
  obtain ⟨t, ht⟩ : ∃ t, (s.dropWhile wsC).reverse
      = t ++ ((s.dropWhile wsC).reverse.dropWhile wsC) := by
    obtain ⟨t, ht⟩ := List.dropWhile_suffix (l := (s.dropWhile wsC).reverse) wsC
    exact ⟨t, ht.symm⟩
  have hpre : s.dropWhile wsC = trimC s ++ t.reverse := by
    unfold trimC
    calc s.dropWhile wsC = (s.dropWhile wsC).reverse.reverse := (List.reverse_reverse _).symm
    _ = (t ++ (s.dropWhile wsC).reverse.dropWhile wsC).reverse := by rw [← ht]
    _ = ((s.dropWhile wsC).reverse.dropWhile wsC).reverse ++ t.reverse := by
        rw [List.reverse_append]
  cases hc : trimC s with
  | nil => rfl
  | cons a rest =>
    have haws : wsC a = false := by
      by_contra hcon
      have haT : wsC a = true := by simpa using hcon
      have : s.dropWhile wsC = a :: (rest ++ t.reverse) := by rw [hpre, hc]; simp
      have hlen := congrArg List.length hA
      rw [this, List.dropWhile_cons, if_pos haT] at hA
      have := congrArg List.length hA
      simp only [List.length_cons] at this
      have hle := (List.dropWhile_sublist (l := rest ++ t.reverse) wsC).length_le
      omega
    rw [List.dropWhile_cons, if_neg (by simp [haws])]

theorem trimC_idem (s : Str) : trimC (trimC s) = trimC s := by
  conv_lhs => rw [trimC, trimC_dropWhile]
  rw [trimC]
  rw [List.reverse_reverse, dropWhile_idem]

theorem tagTokens_good (s : Str) : ∀ t ∈ tagTokens s, goodTok t := by
  intro t ht
  unfold tagTokens at ht
  have h1 := List.mem_filter.mp ht
  obtain ⟨hmap, hne⟩ := h1
  obtain ⟨seg, hseg, hts⟩ := List.mem_map.mp hmap
  refine ⟨by simpa using hne, ?_, ?_⟩
  · intro hc
    exact splitOnC_sep_not_mem ',' s seg hseg (mem_of_mem_trimC (by rw [hts]; exact hc))
  · rw [← hts, trimC_idem]

theorem tagTokens_nil : tagTokens [] = [] := by decide

theorem tagTokens_join {l : List Str} (h : ∀ t ∈ l, goodTok t) :
    tagTokens (joinCS l) = l := by
  induction l with
  | nil => exact tagTokens_nil
  | cons t ts ih =>
    obtain ⟨htne, htc, htt⟩ := h t (List.mem_cons_self t ts)
    cases ts with
    | nil =>
      show tagTokens t = [t]
      unfold tagTokens
      rw [splitOnC_no_sep htc]
      simp [htt, htne]
    | cons u us =>
      have hrest : ∀ x ∈ u :: us, goodTok x := fun x hx => h x (List.mem_cons_of_mem t hx)
      have hjoin : joinCS (t :: u :: us) = t ++ ',' :: ' ' :: joinCS (u :: us) := rfl
      have hsplit : splitOnC ',' (t ++ ',' :: ' ' :: joinCS (u :: us))
          = t :: splitOnC ',' (' ' :: joinCS (u :: us)) := splitOnC_append _ htc
      have hsp : splitOnC ',' (' ' :: joinCS (u :: us))
          = (' ' :: (splitOnC ',' (joinCS (u :: us))).headD [])
              :: (splitOnC ',' (joinCS (u :: us))).tail :=
        splitOnC_cons_ne _ (by decide)
      have IH := ih hrest
      unfold tagTokens at IH ⊢
      rw [hjoin, hsplit, hsp]
      cases hw : splitOnC ',' (joinCS (u :: us)) with
      | nil => exact absurd hw (splitOnC_ne_nil _ _)
      | cons x xs =>
        rw [hw] at IH
        simp only [List.headD_cons, List.tail_cons, List.map_cons]
        rw [trimC_cons_ws x (by decide), htt]
        rw [List.filter_cons_of_pos (by simpa using htne)]
        simp only [List.map_cons] at IH
        rw [IH]

theorem dedupSeen_subset {seen l : List Str} :
    ∀ x ∈ dedupSeen seen l, x ∈ l := by
  induction l generalizing seen with
  | nil => simp [dedupSeen]
  | cons a rest ih =>
    intro x hx
    unfold dedupSeen at hx
    split_ifs at hx with ha
    · exact List.mem_cons_of_mem a (ih x hx)
    · rcases List.mem_cons.mp hx with rfl | hx'
      · exact List.mem_cons_self x rest
      · exact List.mem_cons_of_mem a (ih x hx')

theorem dedupSeen_not_seen {seen l : List Str} :
    ∀ x ∈ dedupSeen seen l, x ∉ seen := by
  induction l generalizing seen with
  | nil => simp [dedupSeen]
  | cons a rest ih =>
    intro x hx
    unfold dedupSeen at hx
    split_ifs at hx with ha
    · exact ih x hx
    · rcases List.mem_cons.mp hx with rfl | hx'
      · exact ha
      · intro hseen
        exact ih x hx' (List.mem_cons_of_mem a hseen)

theorem dedupSeen_nodup (seen l : List Str) : (dedupSeen seen l).Nodup := by
  induction l generalizing seen with
  | nil => simp [dedupSeen]
  | cons a rest ih =>
    unfold dedupSeen
    split_ifs with ha
    · exact ih seen
    · refine List.nodup_cons.mpr ⟨?_, ih (a :: seen)⟩
      intro hmem
      exact dedupSeen_not_seen a hmem (List.mem_cons_self a seen)

theorem dedupSeen_of_nodup {l : List Str} (h : l.Nodup) (seen : List Str)
    (hs : ∀ x ∈ l, x ∉ seen) : dedupSeen seen l = l := by
  induction l generalizing seen with
  | nil => rfl
  | cons a rest ih =>
    unfold dedupSeen
    rw [if_neg (hs a (List.mem_cons_self a rest))]
    obtain ⟨hna, hrest⟩ := List.nodup_cons.mp h
    congr 1
    refine ih hrest (a :: seen) ?_
    intro x hx
    intro hmem
    rcases List.mem_cons.mp hmem with rfl | hmem'
    · exact hna hx
    · exact hs x (List.mem_cons_of_mem a hx) hmem'

theorem tags_forced_idem (tg : List Str) (s b : Str)
    (h : verify_tags_forced tg s = (.Accepted .Tags, b)) (hb : b ≠ []) :
    verify_tags_forced tg b = (.Accepted .Tags, b) := by
  by_cases hs : s = []
  · rw [hs] at h
    simp [verify_tags_forced] at h
  · simp only [verify_tags_forced, if_neg hs] at h
    by_cases hlen : (dedupSeen [] (tagTokens s)).length
        = ((dedupSeen [] (tagTokens s)).filter (fun t => tg.contains t)).length
    · rw [if_pos hlen] at h
      have hball : ∀ a ∈ dedupSeen [] (tagTokens s), tg.contains a :=
        List.filter_length_eq_length.mp hlen.symm
      have hfself : (dedupSeen [] (tagTokens s)).filter (fun t => tg.contains t)
          = dedupSeen [] (tagTokens s) := List.filter_eq_self.mpr hball
      rw [hfself] at h
      have hb' : joinCS (dedupSeen [] (tagTokens s)) = b := congrArg Prod.snd h
      have hgood : ∀ t ∈ dedupSeen [] (tagTokens s), goodTok t := fun t ht =>
        tagTokens_good s t (dedupSeen_subset t ht)
      simp only [verify_tags_forced, if_neg hb]
      rw [← hb', tagTokens_join hgood,
        dedupSeen_of_nodup (dedupSeen_nodup [] (tagTokens s)) [] (by simp), hfself,
        if_pos rfl]
    · rw [if_neg hlen] at h
      simp at h

/-! ## Helper lemmas: date -/

theorem parseU32_val {s : Str} {n : Nat} (h : parseU32 s = some n) :
    n = natVal s ∧ s ≠ [] ∧ s.all Char.isDigit := by
  unfold parseU32 at h
  by_cases h1 : s ≠ [] ∧ s.all Char.isDigit
  · rw [if_pos h1] at h
    by_cases h2 : natVal s ≤ 4294967295
    · rw [if_pos h2] at h
      exact ⟨(Option.some.inj h).symm, h1.1, h1.2⟩
    · rw [if_neg h2] at h
      exact absurd h (by simp)
  · rw [if_neg h1] at h
    exact absurd h (by simp)

theorem parseDate_frame {s : Str} {t : Nat × Nat × Nat} (h : parseDate s = some t) :
    ∃ ys ms ds, splitOnC '-' s = [ys, ms, ds] ∧ t = (natVal ys, natVal ms, natVal ds) := by
  unfold parseDate at h
  split at h
  next ys ms ds heq =>
    refine ⟨ys, ms, ds, heq, ?_⟩
    by_cases h1 : ys ≠ [] ∧ ys.all Char.isDigit ∧ ms ≠ [] ∧ ms.all Char.isDigit
        ∧ ds ≠ [] ∧ ds.all Char.isDigit
    · rw [if_pos h1] at h
      dsimp only at h
      by_cases h2 : 1 ≤ natVal ms ∧ natVal ms ≤ 12 ∧ 1 ≤ natVal ds
          ∧ natVal ds ≤ daysInMonth (natVal ys) (natVal ms)
      · rw [if_pos h2] at h
        exact (Option.some.inj h).symm
      · rw [if_neg h2] at h
        exact absurd h (by simp)
    · rw [if_neg h1] at h
      exact absurd h (by simp)
  next => exact absurd h (by simp)

theorem parseDate_val {s : Str} {y m d : Nat} (h : parseDate s = some (y, m, d)) :
    1 ≤ m ∧ m ≤ 12 ∧ 1 ≤ d ∧ d ≤ daysInMonth y m := by
  unfold parseDate at h
  split at h
  next ys ms ds heq =>
    by_cases h1 : ys ≠ [] ∧ ys.all Char.isDigit ∧ ms ≠ [] ∧ ms.all Char.isDigit
        ∧ ds ≠ [] ∧ ds.all Char.isDigit
    · rw [if_pos h1] at h
      dsimp only at h
      by_cases h2 : 1 ≤ natVal ms ∧ natVal ms ≤ 12 ∧ 1 ≤ natVal ds
          ∧ natVal ds ≤ daysInMonth (natVal ys) (natVal ms)
      · rw [if_pos h2] at h
        have ht := Option.some.inj h
        have h2' := h2
        rw [show natVal ys = y from congrArg (·.1) ht,
          show natVal ms = m from congrArg (·.2.1) ht,
          show natVal ds = d from congrArg (·.2.2) ht] at h2'
        exact h2'
      · rw [if_neg h2] at h
        exact absurd h (by simp)
    · rw [if_neg h1] at h
      exact absurd h (by simp)
  next => exact absurd h (by simp)

theorem dateCore_accept_facts {f b : Str} (h : dateCore f = (.Accepted .Date, b)) :
    b = f ∧ ∀ y m d, parseDate f = some (y, m, d) → 2022 ≤ y ∧ y ≤ 2037 := by
  simp only [dateCore] at h
  by_cases hlen3 : (splitOnC '-' f).length ≠ 3
  · rw [if_pos hlen3] at h
    simp at h
  · rw [if_neg hlen3] at h
    obtain ⟨p0, p1, p2, hparts⟩ := List.length_eq_three.mp (not_ne_iff.mp hlen3)
    rw [hparts] at h
    simp only [List.getD_cons_zero, List.getD_cons_succ] at h
    rcases hy : parseU32 p0 with _ | y0 <;> rw [hy] at h
    · simp at h
    rcases hm : parseU32 p1 with _ | m0 <;> rw [hm] at h
    · simp at h
    rcases hd : parseU32 p2 with _ | d0 <;> rw [hd] at h
    · simp at h
    dsimp only at h
    by_cases h1 : p0.length ≠ 4
    · rw [if_pos h1] at h
      simp at h
    rw [if_neg h1] at h
    by_cases h2 : p1.length ≠ 2
    · rw [if_pos h2] at h
      simp at h
    rw [if_neg h2] at h
    by_cases h3 : p2.length ≠ 2
    · rw [if_pos h3] at h
      simp at h
    rw [if_neg h3] at h
    by_cases h4 : ¬ (2022 ≤ y0 ∧ y0 ≤ 2037)
    · rw [if_pos h4] at h
      simp at h
    rw [if_neg h4] at h
    by_cases h5 : ¬ (1 ≤ m0 ∧ m0 ≤ 12)
    · rw [if_pos h5] at h
      simp at h
    rw [if_neg h5] at h
    by_cases h6 : ¬ (1 ≤ d0 ∧ d0 ≤ 31)
    · rw [if_pos h6] at h
      simp at h
    rw [if_neg h6] at h
    rcases hp : parseDate f with _ | t <;> rw [hp] at h
    · simp at h
    have hbf : f = b := congrArg Prod.snd h
    refine ⟨hbf.symm, ?_⟩
    intro y m d hpd
    have ht : t = (y, m, d) := Option.some.inj hpd
    obtain ⟨ys, ms, ds, hsplit, htval⟩ := parseDate_frame hp
    rw [hparts] at hsplit
    have hys : p0 = ys := by
      have := congrArg (·.headD []) hsplit
      simpa using this
    rw [ht] at htval
    have hyval : y = natVal ys := congrArg (fun p => p.1) htval
    rw [← hys] at hyval
    have hy0 : y0 = natVal p0 := (parseU32_val hy).1
    push_neg at h4
    omega

/-- Inversion of an accepted date validation: the buffer is the filtered
input, the filtered input is a fixed point of the filter, and it parses to
an in-range calendar date. -/
theorem verify_date_accept {s b : Str} (h : verify_date s = (.Accepted .Date, b)) :
    dateCore (s.filter isDateChar) = (.Accepted .Date, b) ∧ b = s.filter isDateChar := by
  by_cases hs : s = []
  · rw [hs] at h
    simp [verify_date] at h
  · rw [verify_date, if_neg hs] at h
    exact ⟨h, (dateCore_accept_facts h).1⟩

set_option maxHeartbeats 1000000 in
theorem rataDie_succ_aux : ∀ y' < 16, ∀ m' < 12, ∀ d' < 31,
    d' + 1 ≤ daysInMonth (2022 + y') (m' + 1) →
    rataDie (dateSucc (2022 + y', m' + 1, d' + 1))
      = rataDie (2022 + y', m' + 1, d' + 1) + 1 := by
  decide

set_option maxHeartbeats 1000000 in
theorem rataDie_pred_aux : ∀ y' < 16, ∀ m' < 12, ∀ d' < 31,
    d' + 1 ≤ daysInMonth (2022 + y') (m' + 1) →
    rataDie (2022 + y', m' + 1, d' + 1)
      = rataDie (datePred (2022 + y', m' + 1, d' + 1)) + 1 := by
  decide

/-- Idempotence of the date validator on accepted buffers (used for C1): an
accepted buffer is the filtered input, which the second call leaves alone. -/
theorem verify_date_idem (s b : Str) (h : verify_date s = (.Accepted .Date, b)) :
    verify_date b = (.Accepted .Date, b) := by
  obtain ⟨hcore, hbf⟩ := verify_date_accept h
  have hbne : b ≠ [] := by
    intro hbnil
    have hfe : s.filter isDateChar = [] := by rw [← hbf, hbnil]
    rw [hfe, hbnil] at hcore
    have hval : dateCore ([] : Str) = (.NotAccepted .InvalidDate, "2022-01-01".data) := by
      decide
    rw [hval] at hcore
    exact absurd hcore (by simp)
  have hfilter : b.filter isDateChar = b := by
    rw [hbf, List.filter_filter]
    congr 1
    funext a
    exact Bool.and_self _
  rw [verify_date, if_neg hbne, hfilter, hbf]
  rw [hbf] at hcore
  exact hcore

/-! ## Helper lemmas: transaction method -/

theorem scanMethods_mem {t m : Str} {ms : List Str} (h : scanMethods t ms = some m) :
    m ∈ ms ∧ lowerS m = lowerS t := by
  induction ms with
  | nil => simp [scanMethods] at h
  | cons a rest ih =>
    by_cases ha : lowerS a = lowerS t
    · simp [scanMethods, ha] at h
      simp [← h, ha]
    · simp only [scanMethods, ha, if_false] at h
      obtain ⟨h1, h2⟩ := ih h
      exact ⟨List.mem_cons_of_mem a h1, h2⟩

theorem scanMethods_is_some {t : Str} {ms : List Str}
    (h : ∃ m ∈ ms, lowerS m = lowerS t) : ∃ m, scanMethods t ms = some m := by
  induction ms with
  | nil => simp at h
  | cons a rest ih =>
    by_cases ha : lowerS a = lowerS t
    · exact ⟨a, by simp [scanMethods, ha]⟩
    · obtain ⟨m, hm, hl⟩ := h
      rcases List.mem_cons.mp hm with rfl | hm'
      · exact absurd hl ha
      · obtain ⟨m', hm'⟩ := ih ⟨m, hm', hl⟩
        exact ⟨m', by simp [scanMethods, ha, hm']⟩

/-! ## Helper lemmas: idempotence of the type and method validators -/

theorem verify_tx_type_idem (s b : Str) (h : verify_tx_type s = (.Accepted .TxType, b)) :
    verify_tx_type b = (.Accepted .TxType, b) := by
  rcases verify_tx_type_cases s with hc | hc | hc | hc | hc
  · rw [hc] at h
    exact absurd h (by simp)
  · have hb : b = "Expense".data := (congrArg Prod.snd (hc.symm.trans h)).symm
    subst hb
    decide
  · have hb : b = "Income".data := (congrArg Prod.snd (hc.symm.trans h)).symm
    subst hb
    decide
  · have hb : b = "Transfer".data := (congrArg Prod.snd (hc.symm.trans h)).symm
    subst hb
    decide
  · rw [hc] at h
    exact absurd h (by simp)

theorem wsC_eq_false_of_toNat {x : Char} (h32 : x.toNat ≠ 32) (h9 : x.toNat ≠ 9)
    (h10 : x.toNat ≠ 10) (h13 : x.toNat ≠ 13) : wsC x = false := by
  unfold wsC
  simp only [Bool.or_eq_false_iff, beq_eq_false_iff_ne, ne_eq]
  refine ⟨⟨⟨?_, ?_⟩, ?_⟩, ?_⟩ <;> intro he <;> subst he <;>
    first
    | exact h32 rfl
    | exact h9 rfl
    | exact h10 rfl
    | exact h13 rfl

theorem toLowerC_toNat_of_upper {c : Char} (h : 65 ≤ c.toNat ∧ c.toNat ≤ 90) :
    (toLowerC c).toNat = c.toNat + 32 := by
  unfold toLowerC
  rw [dif_pos h]
  rfl

theorem toLowerC_eq_of_not_upper {c : Char} (h : ¬ (65 ≤ c.toNat ∧ c.toNat ≤ 90)) :
    toLowerC c = c := by
  unfold toLowerC
  rw [dif_neg h]

theorem wsC_toLowerC (c : Char) : wsC (toLowerC c) = wsC c := by
  by_cases h : 65 ≤ c.toNat ∧ c.toNat ≤ 90
  · have hlow := toLowerC_toNat_of_upper h
    have h1 : wsC c = false := wsC_eq_false_of_toNat
      (by omega) (by omega) (by omega) (by omega)
    have h2 : wsC (toLowerC c) = false := wsC_eq_false_of_toNat
      (by omega) (by omega) (by omega) (by omega)
    rw [h1, h2]
  · rw [toLowerC_eq_of_not_upper h]

theorem dropWhile_eq_self_of_head? {p : Char → Bool} {l : Str}
    (h : ∀ c, l.head? = some c → p c = false) : l.dropWhile p = l := by
  cases l with
  | nil => rfl
  | cons a rest =>
    rw [List.dropWhile_cons, if_neg (by simp [h a rfl])]

theorem head?_false_of_dropWhile_eq_self {p : Char → Bool} {l : Str}
    (h : l.dropWhile p = l) : ∀ c, l.head? = some c → p c = false := by
  intro c hc
  cases l with
  | nil => simp at hc
  | cons a rest =>
    have hca : c = a := by simpa using hc.symm
    subst hca
    by_contra hpc
    have hpa : p c = true := by simpa using hpc
    rw [List.dropWhile_cons, if_pos hpa] at h
    have := congrArg List.length h
    have hle := (List.dropWhile_sublist (l := rest) p).length_le
    simp only [List.length_cons] at this
    omega

theorem trimC_head_not_ws (s : Str) :
    ∀ c, (trimC s).head? = some c → wsC c = false :=
  head?_false_of_dropWhile_eq_self (trimC_dropWhile s)

theorem trimC_reverse_dropWhile (s : Str) :
    (trimC s).reverse.dropWhile wsC = (trimC s).reverse := by
  unfold trimC
  rw [List.reverse_reverse]
  exact dropWhile_idem wsC _

theorem trimC_last_not_ws (s : Str) :
    ∀ c, (trimC s).reverse.head? = some c → wsC c = false :=
  head?_false_of_dropWhile_eq_self (trimC_reverse_dropWhile s)

theorem trimC_eq_self_of {b : Str}
    (hh : ∀ c, b.head? = some c → wsC c = false)
    (hl : ∀ c, b.reverse.head? = some c → wsC c = false) : trimC b = b := by
  unfold trimC
  rw [dropWhile_eq_self_of_head? hh, dropWhile_eq_self_of_head? hl, List.reverse_reverse]

theorem scanMethods_congr {t1 t2 : Str} (h : lowerS t1 = lowerS t2) (ms : List Str) :
    scanMethods t1 ms = scanMethods t2 ms := by
  induction ms with
  | nil => rfl
  | cons a rest ih =>
    simp only [scanMethods, h, ih]

theorem verify_tx_method_idem (ms : List Str) (bm : Str → List Str → Str) (s b : Str)
    (h : verify_tx_method ms bm s = (.Accepted .TxMethod, b)) :
    verify_tx_method ms bm b = (.Accepted .TxMethod, b) := by
  by_cases ht : trimC s = []
  · simp [verify_tx_method, ht] at h
  · simp only [verify_tx_method, if_neg ht] at h
    rcases hscan : scanMethods (trimC s) ms with _ | m <;> rw [hscan] at h
    · simp at h
    · have hb : m = b := congrArg Prod.snd h
      subst hb
      obtain ⟨hmem, hlow⟩ := scanMethods_mem hscan
      have hlen : m.length = (trimC s).length := by
        have := congrArg List.length hlow
        simpa [lowerS] using this
      have hmne : m ≠ [] := by
        intro h0
        rw [h0] at hlen
        simp at hlen
        exact ht (List.eq_nil_of_length_eq_zero hlen.symm)
      have hhead : ∀ c, m.head? = some c → wsC c = false := by
        intro c hc
        cases hts : (trimC s).head? with
        | none =>
          rw [List.head?_eq_none_iff] at hts
          exact absurd hts ht
        | some ct =>
          have hmap := congrArg List.head? hlow
          simp only [lowerS, List.head?_map, hc, hts, Option.map_some'] at hmap
          have hlc : toLowerC c = toLowerC ct := by simpa using hmap
          have := trimC_head_not_ws s ct hts
          rw [← wsC_toLowerC c, hlc, wsC_toLowerC ct]
          exact this
      have hlast : ∀ c, m.reverse.head? = some c → wsC c = false := by
        intro c hc
        cases hts : (trimC s).reverse.head? with
        | none =>
          rw [List.head?_eq_none_iff, List.reverse_eq_nil_iff] at hts
          exact absurd hts ht
        | some ct =>
          have hmap := congrArg (fun l => l.reverse.head?) hlow
          simp only [lowerS, ← List.map_reverse, List.head?_map, hc, hts,
            Option.map_some'] at hmap
          have hlc : toLowerC c = toLowerC ct := by simpa using hmap
          have := trimC_last_not_ws s ct hts
          rw [← wsC_toLowerC c, hlc, wsC_toLowerC ct]
          exact this
      have htm : trimC m = m := trimC_eq_self_of hhead hlast
      simp only [verify_tx_method, htm, if_neg hmne, scanMethods_congr hlow ms, hscan]

/-! ## Helper lemmas: amount — counting characters through `replaceAll` -/

theorem leadsWith_iff {pat s : Str} : leadsWith pat s = true ↔ ∃ t, s = pat ++ t := by
  induction pat generalizing s with
  | nil => simp [leadsWith]
  | cons a as ih =>
    cases s with
    | nil => simp [leadsWith]
    | cons b bs =>
      simp only [leadsWith, Bool.and_eq_true, beq_iff_eq]
      constructor
      · rintro ⟨hab, hl⟩
        obtain ⟨t, ht⟩ := ih.mp hl
        subst hab
        exact ⟨t, by rw [ht]; rfl⟩
      · rintro ⟨t, ht⟩
        injection ht with h1 h2
        exact ⟨h1.symm, ih.mpr ⟨t, h2⟩⟩

theorem filter_drop_length_le (p : Char → Bool) (l : Str) (n : Nat) :
    (List.filter p (l.drop n)).length ≤ (List.filter p l).length := by
  conv_rhs => rw [← List.take_append_drop n l]
  rw [List.filter_append, List.length_append]
  omega

theorem replaceAllAux_filter_le {p : Char → Bool} {rep : Str}
    (hrep : List.filter p rep = []) (fuel : Nat) (s pat : Str) :
    (List.filter p (replaceAllAux fuel s pat rep)).length ≤ (List.filter p s).length := by
  induction fuel generalizing s with
  | zero => simp [replaceAllAux]
  | succ n ih =>
    cases s with
    | nil => simp [replaceAllAux]
    | cons c rest =>
      rw [replaceAllAux]
      split_ifs with h
      · rw [List.filter_append, hrep, List.length_append]
        have h1 := ih ((c :: rest).drop pat.length)
        have h2 := filter_drop_length_le p (c :: rest) pat.length
        simp only [List.length_nil]
        omega
      · rw [List.filter_cons, List.filter_cons]
        split_ifs with hc
        · have := ih rest
          simp only [List.length_cons]
          omega
        · exact ih rest

theorem replaceAllAux_filter_lt {p : Char → Bool} {pat rep : Str}
    (hrep : List.filter p rep = []) (hpat : 1 ≤ (List.filter p pat).length) :
    ∀ fuel s, s.length ≤ fuel → pat <:+: s →
      (List.filter p (replaceAllAux fuel s pat rep)).length + 1
        ≤ (List.filter p s).length := by
  have hpne : pat ≠ [] := by
    intro h0
    rw [h0] at hpat
    simp at hpat
  intro fuel
  induction fuel with
  | zero =>
    intro s hlen hinf
    have hs : s = [] := List.length_eq_zero.mp (Nat.le_zero.mp hlen)
    subst hs
    obtain ⟨u, v, huv⟩ := hinf
    have := congrArg List.length huv
    simp only [List.length_nil, List.length_append] at this
    have : pat = [] := List.length_eq_zero.mp (by omega)
    exact absurd this hpne
  | succ n ih =>
    intro s hlen hinf
    cases s with
    | nil =>
      obtain ⟨u, v, huv⟩ := hinf
      have := congrArg List.length huv
      simp only [List.length_nil, List.length_append] at this
      have : pat = [] := List.length_eq_zero.mp (by omega)
      exact absurd this hpne
    | cons c rest =>
      rw [replaceAllAux]
      by_cases h : pat ≠ [] ∧ leadsWith pat (c :: rest) = true
      · rw [if_pos h]
        obtain ⟨t, ht⟩ := leadsWith_iff.mp h.2
        have hdrop : (c :: rest).drop pat.length = t := by
          rw [ht, List.drop_left]
        rw [List.filter_append, hrep, List.length_append, hdrop]
        have h1 := replaceAllAux_filter_le hrep n t pat
        have h2 : (List.filter p (c :: rest)).length
            = (List.filter p pat).length + (List.filter p t).length := by
          rw [ht, List.filter_append, List.length_append]
        simp only [List.length_nil]
        omega
      · rw [if_neg h]
        have hnl : leadsWith pat (c :: rest) = false := by
          rcases not_and_or.mp h with h' | h'
        -- pat ≠ [] holds, so the second disjunct applies
          · exact absurd hpne h'
          · simpa using h'
        have hinf' : pat <:+: rest := by
          obtain ⟨u, v, huv⟩ := hinf
          cases u with
          | nil =>
            exfalso
            rw [List.nil_append] at huv
            have : leadsWith pat (c :: rest) = true := leadsWith_iff.mpr ⟨v, huv.symm⟩
            rw [this] at hnl
            exact absurd hnl (by simp)
          | cons x xs =>
            rw [List.cons_append, List.cons_append] at huv
            injection huv with h1 h2
            exact ⟨xs, v, h2⟩
        have hlen' : rest.length ≤ n := by
          simp only [List.length_cons] at hlen
          omega
        have := ih rest hlen' hinf'
        rw [List.filter_cons, List.filter_cons]
        split_ifs with hc
        · simp only [List.length_cons]
          omega
        · omega

/-! ## Helper lemmas: amount — the arithmetic pass consumes every plus -/

theorem findSym_none_iff {c : Char} {w : Str} : findSym c w = none ↔ c ∉ w := by
  induction w with
  | nil => simp [findSym]
  | cons a rest ih =>
    by_cases hac : a = c
    · subst hac
      simp [findSym]
    · have hb : (a == c) = false := by simpa using hac
      simp only [findSym, hb, Bool.false_eq_true, if_false, Option.map_eq_none', ih]
      simp [List.mem_cons, Ne.symm hac]

theorem findSym_spec {c : Char} {w : Str} {loc : Nat} (h : findSym c w = some loc) :
    w.take loc ++ c :: w.drop (loc + 1) = w ∧ c ∉ w.take loc := by
  induction w generalizing loc with
  | nil => simp [findSym] at h
  | cons a rest ih =>
    by_cases hac : a = c
    · subst hac
      have hloc : loc = 0 := by simpa [findSym] using h.symm
      subst hloc
      simp
    · have hb : (a == c) = false := by simpa using hac
      rw [findSym, if_neg (by simp [hb])] at h
      rcases hrest : findSym c rest with _ | l <;> rw [hrest] at h
      · simp at h
      · have hl : loc = l + 1 := by simpa using h.symm
        subst hl
        obtain ⟨h1, h2⟩ := ih hrest
        refine ⟨?_, ?_⟩
        · rw [List.take_succ_cons, List.drop_succ_cons, List.cons_append, h1]
        · rw [List.take_succ_cons]
          intro hmem
          rcases List.mem_cons.mp hmem with h' | h'
          · exact hac h'.symm
          · exact h2 h'

theorem findFirstSym_spec {w : Str} {sym : Char} {loc : Nat}
    (h : findFirstSym w = some (sym, loc)) :
    findSym sym w = some loc ∧ isCalc sym = true := by
  unfold findFirstSym at h
  rcases h1 : findSym '*' w with _ | l <;> rw [h1] at h
  · rcases h2 : findSym '/' w with _ | l <;> rw [h2] at h
    · rcases h3 : findSym '+' w with _ | l <;> rw [h3] at h
      · rcases h4 : findSym '-' w with _ | l <;> rw [h4] at h
        · simp at h
        · have hp := Option.some.inj h
          have hs : sym = '-' := (congrArg Prod.fst hp).symm
          have hl : loc = l := (congrArg Prod.snd hp).symm
          subst hs
          subst hl
          exact ⟨h4, by decide⟩
      · have hp := Option.some.inj h
        have hs : sym = '+' := (congrArg Prod.fst hp).symm
        have hl : loc = l := (congrArg Prod.snd hp).symm
        subst hs
        subst hl
        exact ⟨h3, by decide⟩
    · have hp := Option.some.inj h
      have hs : sym = '/' := (congrArg Prod.fst hp).symm
      have hl : loc = l := (congrArg Prod.snd hp).symm
      subst hs
      subst hl
      exact ⟨h2, by decide⟩
  · have hp := Option.some.inj h
    have hs : sym = '*' := (congrArg Prod.fst hp).symm
    have hl : loc = l := (congrArg Prod.snd hp).symm
    subst hs
    subst hl
    exact ⟨h1, by decide⟩

theorem findFirstSym_hi_of_plus {w : Str} (hplus : '+' ∈ w) :
    ∃ sym loc, findFirstSym w = some (sym, loc) ∧ isHi sym = true := by
  unfold findFirstSym
  rcases h1 : findSym '*' w with _ | l
  · rcases h2 : findSym '/' w with _ | l
    · rcases h3 : findSym '+' w with _ | l
      · exact absurd hplus (findSym_none_iff.mp h3)
      · exact ⟨'+', l, rfl, by decide⟩
    · exact ⟨'/', l, rfl, by decide⟩
  · exact ⟨'*', l, rfl, by decide⟩

theorem evalPass_pattern {w : Str} {sym : Char} {loc : Nat}
    (hfs : findSym sym w = some loc) :
    (((w.reverse.drop (w.length - loc)).takeWhile notCalc).reverse
        ++ sym :: (w.drop (loc + 1)).takeWhile notCalc) <:+: w ∧
    (∀ c ∈ ((w.reverse.drop (w.length - loc)).takeWhile notCalc).reverse,
      isCalc c = false) ∧
    (∀ c ∈ (w.drop (loc + 1)).takeWhile notCalc, isCalc c = false) := by
  obtain ⟨hw, hnotin⟩ := findSym_spec hfs
  have hrev : w.reverse.drop (w.length - loc) = (w.take loc).reverse :=
    (List.reverse_take).symm
  have hsplit := List.takeWhile_append_dropWhile (p := notCalc) (l := (w.take loc).reverse)
  have ht2 : w.take loc
      = ((w.take loc).reverse.dropWhile notCalc).reverse
          ++ ((w.take loc).reverse.takeWhile notCalc).reverse := by
    conv_lhs => rw [← List.reverse_reverse (w.take loc), ← hsplit]
    rw [List.reverse_append]
  have hd := List.takeWhile_append_dropWhile (p := notCalc) (l := w.drop (loc + 1))
  refine ⟨?_, ?_, ?_⟩
  · refine ⟨((w.take loc).reverse.dropWhile notCalc).reverse,
      (w.drop (loc + 1)).dropWhile notCalc, ?_⟩
    rw [hrev]
    calc ((w.take loc).reverse.dropWhile notCalc).reverse
          ++ (((w.take loc).reverse.takeWhile notCalc).reverse
              ++ sym :: (w.drop (loc + 1)).takeWhile notCalc)
          ++ (w.drop (loc + 1)).dropWhile notCalc
        = (((w.take loc).reverse.dropWhile notCalc).reverse
            ++ ((w.take loc).reverse.takeWhile notCalc).reverse)
          ++ sym :: ((w.drop (loc + 1)).takeWhile notCalc
              ++ (w.drop (loc + 1)).dropWhile notCalc) := by
          simp [List.append_assoc]
    _ = w.take loc ++ sym :: w.drop (loc + 1) := by rw [← ht2, hd]
    _ = w := hw
  · intro c hc
    rw [hrev, List.mem_reverse] at hc
    have := List.mem_takeWhile_imp hc
    simpa [notCalc] using this
  · intro c hc
    have := List.mem_takeWhile_imp hc
    simpa [notCalc] using this

theorem digitChar_isDigit : ∀ n < 10, (Nat.digitChar n).isDigit = true := by decide

theorem natToStrAux_digits : ∀ fuel n, ∀ c ∈ natToStrAux fuel n, c.isDigit = true := by
  intro fuel
  induction fuel with
  | zero =>
    intro n c hc
    simp [natToStrAux] at hc
  | succ f ih =>
    intro n c hc
    rw [natToStrAux] at hc
    split_ifs at hc with h
    · have : c = Nat.digitChar n := by simpa using hc
      subst this
      exact digitChar_isDigit n h
    · rcases List.mem_append.mp hc with h' | h'
      · exact ih _ c h'
      · have : c = Nat.digitChar (n % 10) := by simpa using h'
        subst this
        exact digitChar_isDigit _ (Nat.mod_lt _ (by omega))

theorem natToStr_digits (n : Nat) : ∀ c ∈ natToStr n, c.isDigit = true :=
  natToStrAux_digits (n + 1) n

theorem frac2_digits (n : Nat) : ∀ c ∈ frac2 n, c.isDigit = true := by
  intro c hc
  unfold frac2 at hc
  split_ifs at hc with h
  · rcases List.mem_cons.mp hc with rfl | h'
    · decide
    · exact natToStr_digits n c h'
  · exact natToStr_digits n c hc

theorem fmt2_chars (q : Q) : ∀ c ∈ fmt2 q, c.isDigit = true ∨ c = '.' ∨ c = '-' := by
  intro c hc
  simp only [fmt2] at hc
  rcases List.mem_append.mp hc with h' | h'
  · rcases List.mem_append.mp h' with h'' | h''
    · split_ifs at h'' with hq
      · have : c = '-' := by simpa using h''
        exact Or.inr (Or.inr this)
      · simp at h''
    · exact Or.inl (natToStr_digits _ c h'')
  · rcases List.mem_cons.mp h' with rfl | h''
    · exact Or.inr (Or.inl rfl)
    · exact Or.inl (frac2_digits _ c h'')

theorem isDigit_toNat {c : Char} (h : c.isDigit = true) :
    48 ≤ c.toNat ∧ c.toNat ≤ 57 := by
  unfold Char.isDigit at h
  simp only [Bool.and_eq_true, decide_eq_true_eq] at h
  obtain ⟨h1, h2⟩ := h
  have h1' : (48 : UInt32) ≤ c.val := h1
  rw [UInt32.le_def, BitVec.le_def] at h1' h2
  exact ⟨by simpa using h1', by simpa using h2⟩

theorem isCalc_false_of_isDigit {c : Char} (h : c.isDigit = true) : isCalc c = false := by
  have hb := isDigit_toNat h
  unfold isCalc
  simp only [Bool.or_eq_false_iff, beq_eq_false_iff_ne, ne_eq]
  refine ⟨⟨⟨?_, ?_⟩, ?_⟩, ?_⟩ <;> intro he <;> subst he <;> exact absurd hb (by decide)

theorem isCalc_of_isHi {c : Char} (h : isHi c = true) : isCalc c = true := by
  simp only [isHi, Bool.or_eq_true] at h
  simp only [isCalc, Bool.or_eq_true]
  tauto

theorem filter_hi_nil_of_calc_free {r : Str} (h : ∀ c ∈ r, isCalc c = false) :
    List.filter isHi r = [] := by
  rw [List.filter_eq_nil_iff]
  intro a ha hhi
  have := isCalc_of_isHi hhi
  rw [h a ha] at this
  exact absurd this (by simp)

theorem filter_plus_nil_of_hi {r : Str} (h : List.filter isHi r = []) :
    List.filter (fun c => c == '+') r = [] := by
  rw [List.filter_eq_nil_iff] at h ⊢
  intro a ha hp
  have : a = '+' := by simpa using hp
  subst this
  exact h '+' ha (by decide)

theorem fmt2_filter_hi (q : Q) : List.filter isHi (fmt2 q) = [] := by
  rw [List.filter_eq_nil_iff]
  intro c hc hhi
  rcases fmt2_chars q c hc with h | h | h
  · have := isCalc_of_isHi hhi
    rw [isCalc_false_of_isDigit h] at this
    exact absurd this (by simp)
  · subst h
    exact absurd hhi (by decide)
  · subst h
    exact absurd hhi (by decide)

theorem applySym_filter_hi (sym : Char) (a b : Q) :
    List.filter isHi (applySym sym a b) = [] := by
  unfold applySym
  split_ifs <;> first | exact fmt2_filter_hi _ | decide | rfl

theorem evalPass_ok_plus {w w' : Str} (h : evalPass w = .ok w')
    (hw : List.filter (fun c => c == '+') w = []) :
    List.filter (fun c => c == '+') w' = [] := by
  unfold evalPass at h
  rcases hff : findFirstSym w with _ | sl <;> rw [hff] at h
  · have : w = w' := by simpa using h
    subst this
    exact hw
  · obtain ⟨sym, loc⟩ := sl
    dsimp only at h
    obtain ⟨hfs, _⟩ := findFirstSym_spec hff
    obtain ⟨hsub, hfirst, hlast⟩ := evalPass_pattern hfs
    have hfin : ∀ rep, List.filter (fun c => c == '+') rep = [] →
        List.filter (fun c => c == '+')
          (replaceAll w
            (((w.reverse.drop (w.length - loc)).takeWhile notCalc).reverse
              ++ sym :: (w.drop (loc + 1)).takeWhile notCalc) rep) = [] := by
      intro rep hrep
      have hle := replaceAllAux_filter_le hrep w.length w
        (((w.reverse.drop (w.length - loc)).takeWhile notCalc).reverse
          ++ sym :: (w.drop (loc + 1)).takeWhile notCalc)
      rw [hw] at hle
      simp only [List.length_nil, Nat.le_zero] at hle
      exact List.length_eq_zero.mp hle
    split_ifs at h with hempty hfe
    · rw [← Except.ok.inj h]
      exact hfin _ (filter_plus_nil_of_hi (filter_hi_nil_of_calc_free hlast))
    · rw [← Except.ok.inj h]
      exact hfin _ (filter_plus_nil_of_hi (filter_hi_nil_of_calc_free hfirst))
    · rcases hpa : parseF (((w.reverse.drop (w.length - loc)).takeWhile notCalc).reverse)
          with _ | a <;> rw [hpa] at h
      · simp at h
      rcases hpb : parseF ((w.drop (loc + 1)).takeWhile notCalc) with _ | b <;>
        rw [hpb] at h
      · simp at h
      rw [← Except.ok.inj h]
      exact hfin _ (filter_plus_nil_of_hi (applySym_filter_hi sym a b))

theorem evalPass_ok_hi_strict {w w' : Str} (h : evalPass w = .ok w') (hplus : '+' ∈ w) :
    (List.filter isHi w').length + 1 ≤ (List.filter isHi w).length := by
  obtain ⟨sym, loc, hff, hhi⟩ := findFirstSym_hi_of_plus hplus
  unfold evalPass at h
  rw [hff] at h
  dsimp only at h
  obtain ⟨hfs, _⟩ := findFirstSym_spec hff
  obtain ⟨hsub, hfirst, hlast⟩ := evalPass_pattern hfs
  have hpatfilter : 1 ≤ (List.filter isHi
      (((w.reverse.drop (w.length - loc)).takeWhile notCalc).reverse
        ++ sym :: (w.drop (loc + 1)).takeWhile notCalc)).length := by
    rw [List.filter_append, List.filter_cons, if_pos hhi]
    simp only [List.length_append, List.length_cons]
    omega
  have hfin : ∀ rep, List.filter isHi rep = [] →
      (List.filter isHi
        (replaceAll w
          (((w.reverse.drop (w.length - loc)).takeWhile notCalc).reverse
            ++ sym :: (w.drop (loc + 1)).takeWhile notCalc) rep)).length + 1
        ≤ (List.filter isHi w).length := fun rep hrep =>
    replaceAllAux_filter_lt hrep hpatfilter w.length w le_rfl hsub
  split_ifs at h with hempty hfe
  · rw [← Except.ok.inj h]
    exact hfin _ (filter_hi_nil_of_calc_free hlast)
  · rw [← Except.ok.inj h]
    exact hfin _ (filter_hi_nil_of_calc_free hfirst)
  · rcases hpa : parseF (((w.reverse.drop (w.length - loc)).takeWhile notCalc).reverse)
        with _ | a <;> rw [hpa] at h
    · simp at h
    rcases hpb : parseF ((w.drop (loc + 1)).takeWhile notCalc) with _ | b <;>
      rw [hpb] at h
    · simp at h
    rw [← Except.ok.inj h]
    exact hfin _ (applySym_filter_hi sym a b)

theorem evalLoop_ok_plus : ∀ n (w w' : Str), evalLoop n w = .ok w' →
    List.filter (fun c => c == '+') w = [] →
    List.filter (fun c => c == '+') w' = [] := by
  intro n
  induction n with
  | zero =>
    intro w w' h hw
    have : w = w' := by simpa [evalLoop] using h
    subst this
    exact hw
  | succ k ih =>
    intro w w' h hw
    rw [evalLoop] at h
    rcases hp : evalPass w with e | w1 <;> rw [hp] at h
    · simp at h
    · exact ih w1 w' h (evalPass_ok_plus hp hw)

theorem evalLoop_no_plus : ∀ n (w w' : Str), evalLoop n w = .ok w' →
    (List.filter isHi w).length ≤ n → '+' ∉ w' := by
  intro n
  induction n with
  | zero =>
    intro w w' h hn hmem
    have : w = w' := by simpa [evalLoop] using h
    subst this
    have hm : '+' ∈ List.filter isHi w := List.mem_filter.mpr ⟨hmem, by decide⟩
    have := List.length_pos.mpr (List.ne_nil_of_mem hm)
    omega
  | succ k ih =>
    intro w w' h hn hmem
    rw [evalLoop] at h
    rcases hp : evalPass w with e | w1 <;> rw [hp] at h
    · simp at h
    · by_cases hwplus : List.filter (fun c => c == '+') w = []
      · have hnil := evalLoop_ok_plus k w1 w' h (evalPass_ok_plus hp hwplus)
        rw [List.filter_eq_nil_iff] at hnil
        exact hnil '+' hmem (by decide)
      · have hplusmem : '+' ∈ w := by
          rcases hf : List.filter (fun c => c == '+') w with _ | ⟨a, t⟩
          · exact absurd hf hwplus
          · have ha : a ∈ List.filter (fun c => c == '+') w := by
              rw [hf]
              exact List.mem_cons_self a t
            obtain ⟨hmem', hpa⟩ := List.mem_filter.mp ha
            have : a = '+' := by simpa using hpa
            subst this
            exact hmem'
        have hstrict := evalPass_ok_hi_strict hp hplusmem
        exact ih w1 w' h (by omega) hmem

/-! ## Helper lemmas: amount — shape of an accepted buffer -/

theorem parseUq_inv {s : Str} {q : Q} (h : parseUq s = some q) :
    (s.dropWhile Char.isDigit = [] ∧ s.takeWhile Char.isDigit ≠ []
      ∧ q = ⟨natVal (s.takeWhile Char.isDigit), 1⟩)
    ∨ (∃ fp, s.dropWhile Char.isDigit = '.' :: fp ∧ fp.all Char.isDigit = true
      ∧ q = ⟨natVal (s.takeWhile Char.isDigit) * (10 ^ fp.length : Nat) + natVal fp,
          10 ^ fp.length⟩) := by
  unfold parseUq at h
  dsimp only at h
  rcases hdrop : s.dropWhile Char.isDigit with _ | ⟨c, fp⟩ <;> rw [hdrop] at h <;>
    dsimp only at h
  · by_cases hip : s.takeWhile Char.isDigit = []
    · rw [if_pos hip] at h
      simp at h
    · rw [if_neg hip] at h
      refine Or.inl ⟨rfl, hip, ?_⟩
      simpa using h.symm
  · by_cases hcond : c = '.' ∧ fp.all Char.isDigit = true
        ∧ (s.takeWhile Char.isDigit ≠ [] ∨ fp ≠ [])
    · rw [if_pos hcond] at h
      obtain ⟨hc, hfp, _⟩ := hcond
      subst hc
      refine Or.inr ⟨fp, rfl, hfp, ?_⟩
      simpa using h.symm
    · rw [if_neg hcond] at h
      simp at h

theorem parseUq_nonneg {s : Str} {q : Q} (h : parseUq s = some q) : 0 ≤ q.num := by
  rcases parseUq_inv h with ⟨_, _, hq⟩ | ⟨fp, _, _, hq⟩ <;> subst hq <;>
    exact Int.ofNat_nonneg _

theorem parseF_of_head {s : Str} (h1 : s.head? ≠ some '+') (h2 : s.head? ≠ some '-') :
    parseF s = parseUq s := by
  unfold parseF
  split
  next => simp at h1
  next => simp at h2
  next => rfl

theorem dotNorm_split (w : Str) :
    (dotNorm w = w ∧ '.' ∈ w ∧ (splitOnC '.' w).getD 1 [] ≠ [])
    ∨ (dotNorm w = w ++ ['0', '0'] ∧ '.' ∈ w)
    ∨ dotNorm w = w ++ ['.', '0', '0'] := by
  unfold dotNorm
  split_ifs with h1 h2
  · exact Or.inr (Or.inl ⟨rfl, by simpa using h1⟩)
  · exact Or.inl ⟨rfl, by simpa using h1, h2⟩
  · exact Or.inr (Or.inr rfl)

theorem takeWhile_all_digits (s : Str) :
    (s.takeWhile Char.isDigit).all Char.isDigit = true := by
  rw [List.all_eq_true]
  intro c hc
  exact List.mem_takeWhile_imp hc

theorem final_step {ip0 fp2 b : Str} (hip : ip0.all Char.isDigit = true)
    (hfp : fp2.all Char.isDigit = true) (hlen : fp2.length = 2)
    (hb : b = if 10 < ip0.length then ip0.take 10 ++ '.' :: fp2 else ip0 ++ '.' :: fp2) :
    ∃ ip fp, b = ip ++ '.' :: fp ∧ ip.all Char.isDigit = true
      ∧ fp.all Char.isDigit = true ∧ fp.length = 2 ∧ ip.length ≤ 10 := by
  by_cases hlong : 10 < ip0.length
  · rw [if_pos hlong] at hb
    refine ⟨ip0.take 10, fp2, hb, ?_, hfp, hlen, ?_⟩
    · rw [List.all_eq_true]
      intro c hc
      exact List.all_eq_true.mp hip c (List.take_subset 10 ip0 hc)
    · rw [List.length_take]
      omega
  · rw [if_neg hlong] at hb
    exact ⟨ip0, fp2, hb, hip, hfp, hlen, by omega⟩

theorem amountTail_accept_shape {w b : Str} (h : amountTail w = (.Accepted .Amount, b))
    (hplus : '+' ∉ w) :
    ∃ ip fp, b = ip ++ '.' :: fp ∧ ip.all Char.isDigit = true
      ∧ fp.all Char.isDigit = true ∧ fp.length = 2 ∧ ip.length ≤ 10 := by
  unfold amountTail at h
  dsimp only at h
  rcases hp : parseF (dotNorm w) with _ | v <;> rw [hp] at h
  · simp at h
  dsimp only at h
  by_cases h0 : v.num ≤ 0
  · rw [if_pos h0] at h
    simp at h
  rw [if_neg h0] at h
  have hneg : 0 < v.num := by omega
  have hdot : '.' ∈ dotNorm w := by
    rcases dotNorm_split w with ⟨he, hm, _⟩ | ⟨he, hm⟩ | he <;> rw [he]
    · exact hm
    · exact List.mem_append_left _ hm
    · exact List.mem_append_right _ (by simp)
  have hplus3 : '+' ∉ dotNorm w := by
    rcases dotNorm_split w with ⟨he, _, _⟩ | ⟨he, _⟩ | he <;> rw [he]
    · exact hplus
    · intro hmem
      rcases List.mem_append.mp hmem with hm | hm
      · exact hplus hm
      · simp at hm
    · intro hmem
      rcases List.mem_append.mp hmem with hm | hm
      · exact hplus hm
      · simp at hm
  have hheadm : (dotNorm w).head? ≠ some '-' := by
    intro hh
    cases hs : dotNorm w with
    | nil =>
      rw [hs] at hh
      simp at hh
    | cons c r =>
      rw [hs] at hh
      have hc : c = '-' := by simpa using hh
      subst hc
      rw [hs] at hp
      have hred : parseF ('-' :: r) = (parseUq r).map (fun q => ⟨-q.num, q.den⟩) := rfl
      rw [hred] at hp
      rcases hq : parseUq r with _ | q <;> rw [hq] at hp
      · simp at hp
      · have hv : v = ⟨-q.num, q.den⟩ := by simpa using hp.symm
        have := parseUq_nonneg hq
        rw [hv] at hneg
        simp only at hneg
        omega
  have hheadp : (dotNorm w).head? ≠ some '+' := by
    intro hh
    cases hs : dotNorm w with
    | nil =>
      rw [hs] at hh
      simp at hh
    | cons c r =>
      rw [hs] at hh
      have hc : c = '+' := by simpa using hh
      subst hc
      apply hplus3
      rw [hs]
      exact List.mem_cons_self _ _
  rw [parseF_of_head hheadp hheadm] at hp
  rcases parseUq_inv hp with ⟨hdropnil, _, _⟩ | ⟨fp0, hdrop, hfp0, hq⟩
  · exfalso
    have hsd : dotNorm w = (dotNorm w).takeWhile Char.isDigit := by
      conv_lhs => rw [← List.takeWhile_append_dropWhile Char.isDigit (dotNorm w)]
      rw [hdropnil, List.append_nil]
    have hdig := List.mem_takeWhile_imp (hsd ▸ hdot)
    exact absurd hdig (by decide)
  · set ip0 := (dotNorm w).takeWhile Char.isDigit with hip0
    have hsplit : dotNorm w = ip0 ++ '.' :: fp0 := by
      conv_lhs => rw [← List.takeWhile_append_dropWhile Char.isDigit (dotNorm w)]
      rw [hdrop]
    have hipdig : ip0.all Char.isDigit = true := takeWhile_all_digits (dotNorm w)
    have hdotfree_ip : '.' ∉ ip0 := fun hm =>
      absurd (List.mem_takeWhile_imp hm) (by decide)
    have hdotfree_fp : '.' ∉ fp0 := fun hm =>
      absurd (List.all_eq_true.mp hfp0 '.' hm) (by decide)
    have hfpne : fp0 ≠ [] := by
      intro hfp0nil
      subst hfp0nil
      rcases dotNorm_split w with ⟨he, _, hseg⟩ | ⟨he, _⟩ | he
      · apply hseg
        rw [← he, hsplit, splitOnC_append _ hdotfree_ip,
          splitOnC_no_sep (List.not_mem_nil '.')]
        rfl
      · have e1 : (dotNorm w).getLast? = some '.' := by
          rw [hsplit]
          exact List.getLast?_concat _
        have e2 : (dotNorm w).getLast? = some '0' := by
          rw [he, show w ++ ['0', '0'] = (w ++ ['0']) ++ ['0'] by simp]
          exact List.getLast?_concat _
        rw [e1] at e2
        simp at e2
      · have e1 : (dotNorm w).getLast? = some '.' := by
          rw [hsplit]
          exact List.getLast?_concat _
        have e2 : (dotNorm w).getLast? = some '0' := by
          rw [he, show w ++ ['.', '0', '0'] = (w ++ ['.', '0']) ++ ['0'] by simp]
          exact List.getLast?_concat _
        rw [e1] at e2
        simp at e2
    have hsplitOn : splitOnC '.' (dotNorm w) = [ip0, fp0] := by
      rw [hsplit, splitOnC_append _ hdotfree_ip, splitOnC_no_sep hdotfree_fp]
    have hcont : (dotNorm w).contains '.' = true := by simpa using hdot
    rw [if_pos hcont, hsplitOn] at h
    simp only [List.getD_cons_zero, List.getD_cons_succ] at h
    by_cases hl1 : fp0.length < 2
    · rw [if_pos hl1] at h
      have hfp0len : fp0.length = 1 := by
        have : fp0.length ≠ 0 := fun hz => hfpne (List.length_eq_zero.mp hz)
        omega
      have e4 : dotNorm w ++ ['0'] = ip0 ++ '.' :: (fp0 ++ ['0']) := by
        rw [hsplit]
        simp
      rw [e4] at h
      have hdot2 : '.' ∉ fp0 ++ ['0'] := by
        intro hm
        rcases List.mem_append.mp hm with hm' | hm'
        · exact hdotfree_fp hm'
        · simp at hm'
      have hsp4 : splitOnC '.' (ip0 ++ '.' :: (fp0 ++ ['0'])) = [ip0, fp0 ++ ['0']] := by
        rw [splitOnC_append _ hdotfree_ip, splitOnC_no_sep hdot2]
      rw [hsp4] at h
      simp only [List.getD_cons_zero, List.getD_cons_succ] at h
      refine final_step hipdig ?_ (by simp [hfp0len]) (congrArg Prod.snd h).symm
      rw [List.all_eq_true]
      intro c hc
      rcases List.mem_append.mp hc with hm | hm
      · exact List.all_eq_true.mp hfp0 c hm
      · have : c = '0' := by simpa using hm
        subst this
        decide
    · rw [if_neg hl1] at h
      by_cases hl2 : 2 < fp0.length
      · rw [if_pos hl2] at h
        have hdot2 : '.' ∉ fp0.take 2 := fun hm => hdotfree_fp (List.take_subset 2 fp0 hm)
        have hsp4 : splitOnC '.' (ip0 ++ '.' :: fp0.take 2) = [ip0, fp0.take 2] := by
          rw [splitOnC_append _ hdotfree_ip, splitOnC_no_sep hdot2]
        rw [hsp4] at h
        simp only [List.getD_cons_zero, List.getD_cons_succ] at h
        refine final_step hipdig ?_ (by rw [List.length_take]; omega)
          (congrArg Prod.snd h).symm
        rw [List.all_eq_true]
        intro c hc
        exact List.all_eq_true.mp hfp0 c (List.take_subset 2 fp0 hc)
      · rw [if_neg hl2] at h
        rw [hsplit] at h
        have hsp4 : splitOnC '.' (ip0 ++ '.' :: fp0) = [ip0, fp0] := by
          rw [splitOnC_append _ hdotfree_ip, splitOnC_no_sep hdotfree_fp]
        rw [hsp4] at h
        simp only [List.getD_cons_zero, List.getD_cons_succ] at h
        exact final_step hipdig hfp0 (by omega) (congrArg Prod.snd h).symm

theorem amountTail_of_shape {ip fp b : Str} (hb : b = ip ++ '.' :: fp)
    (hip : ip.all Char.isDigit = true) (hfp : fp.all Char.isDigit = true)
    (hlen : fp.length = 2) (hiplen : ip.length ≤ 10)
    (hv : 0 < ((parseF b).getD ⟨0, 1⟩).num) :
    amountTail b = (.Accepted .Amount, b) := by
  subst hb
  have hfpne : fp ≠ [] := by
    intro h0
    rw [h0] at hlen
    simp at hlen
  have hdotfree_ip : '.' ∉ ip := fun hm =>
    absurd (List.all_eq_true.mp hip '.' hm) (by decide)
  have hdotfree_fp : '.' ∉ fp := fun hm =>
    absurd (List.all_eq_true.mp hfp '.' hm) (by decide)
  have htake : (ip ++ '.' :: fp).takeWhile Char.isDigit = ip := by
    rw [List.takeWhile_append_of_pos (fun a ha => List.all_eq_true.mp hip a ha)]
    rw [List.takeWhile_cons, if_neg (by decide)]
    simp
  have hdropw : (ip ++ '.' :: fp).dropWhile Char.isDigit = '.' :: fp := by
    rw [List.dropWhile_append]
    have h1 : ip.dropWhile Char.isDigit = [] :=
      List.dropWhile_eq_nil_iff.mpr (fun x hx => List.all_eq_true.mp hip x hx)
    rw [h1]
    simp only [List.isEmpty_nil, if_true]
    rw [List.dropWhile_cons, if_neg (by decide)]
  have hparse : parseUq (ip ++ '.' :: fp)
      = some ⟨natVal ip * (10 ^ fp.length : Nat) + natVal fp, 10 ^ fp.length⟩ := by
    unfold parseUq
    dsimp only
    rw [hdropw]
    dsimp only
    rw [if_pos ⟨rfl, hfp, Or.inr hfpne⟩, htake]
  have hheadp : (ip ++ '.' :: fp).head? ≠ some '+' := by
    intro hh
    cases hi : ip with
    | nil =>
      rw [hi] at hh
      simp at hh
    | cons a as =>
      rw [hi] at hh
      simp only [List.cons_append, List.head?_cons, Option.some.injEq] at hh
      have hd : a.isDigit = true := List.all_eq_true.mp hip a (by rw [hi]; simp)
      rw [hh] at hd
      exact absurd hd (by decide)
  have hheadm : (ip ++ '.' :: fp).head? ≠ some '-' := by
    intro hh
    cases hi : ip with
    | nil =>
      rw [hi] at hh
      simp at hh
    | cons a as =>
      rw [hi] at hh
      simp only [List.cons_append, List.head?_cons, Option.some.injEq] at hh
      have hd : a.isDigit = true := List.all_eq_true.mp hip a (by rw [hi]; simp)
      rw [hh] at hd
      exact absurd hd (by decide)
  have hparseF : parseF (ip ++ '.' :: fp) = parseUq (ip ++ '.' :: fp) :=
    parseF_of_head hheadp hheadm
  have hcont : (ip ++ '.' :: fp).contains '.' = true := by
    simp
  have hsplitOn : splitOnC '.' (ip ++ '.' :: fp) = [ip, fp] := by
    rw [splitOnC_append _ hdotfree_ip, splitOnC_no_sep hdotfree_fp]
  have hdn : dotNorm (ip ++ '.' :: fp) = ip ++ '.' :: fp := by
    unfold dotNorm
    rw [if_pos hcont, hsplitOn]
    simp only [List.getD_cons_succ, List.getD_cons_zero]
    rw [if_neg hfpne]
  have hv' : 0 < (natVal ip * (10 ^ fp.length : Nat) + natVal fp : Int) := by
    rw [hparseF, hparse] at hv
    simpa using hv
  unfold amountTail
  dsimp only
  rw [hdn, hparseF, hparse]
  dsimp only
  rw [if_neg (by intro hle; omega)]
  rw [if_pos hcont, hsplitOn]
  simp only [List.getD_cons_zero, List.getD_cons_succ]
  rw [if_neg (show ¬ fp.length < 2 by omega), if_neg (show ¬ 2 < fp.length by omega)]
  rw [hsplitOn]
  simp only [List.getD_cons_zero, List.getD_cons_succ]
  rw [if_neg (show ¬ 10 < ip.length by omega)]

theorem filter_hi_via_calc (l : Str) :
    (List.filter isHi l).length ≤ (List.filter isCalc l).length := by
  have he : List.filter isHi l = List.filter isHi (List.filter isCalc l) := by
    rw [List.filter_filter]
    refine (List.filter_congr ?_).symm
    intro a _
    cases hha : isHi a
    · simp
    · simp [isCalc_of_isHi hha]
  rw [he]
  exact List.length_filter_le _ _

theorem verify_amount_idem (s b : Str) (h : verify_amount s = (.Accepted .Amount, b))
    (hv : 0 < ((parseF b).getD ⟨0, 1⟩).num) :
    verify_amount b = (.Accepted .Amount, b) := by
  by_cases hs : s = []
  · rw [hs] at h
    simp [verify_amount] at h
  rw [verify_amount, if_neg hs] at h
  dsimp only at h
  by_cases hf : s.filter isAmountChar = []
  · rw [if_pos hf] at h
    simp at h
  rw [if_neg hf] at h
  have hshape : ∃ ip fp, b = ip ++ '.' :: fp ∧ ip.all Char.isDigit = true
      ∧ fp.all Char.isDigit = true ∧ fp.length = 2 ∧ ip.length ≤ 10 := by
    by_cases hcal : (s.filter isAmountChar).any isCalc = true
    · rw [if_pos hcal] at h
      rcases hloop : evalLoop ((s.filter isAmountChar).filter isCalc).length
          (s.filter isAmountChar) with e | w2 <;> rw [hloop] at h
      · simp at h
      · refine amountTail_accept_shape h ?_
        exact evalLoop_no_plus _ _ _ hloop (filter_hi_via_calc _)
    · rw [if_neg hcal] at h
      refine amountTail_accept_shape h ?_
      intro hmem
      exact hcal (List.any_eq_true.mpr ⟨'+', hmem, by decide⟩)
  obtain ⟨ip, fp, hb, hip, hfp, hlen, hiplen⟩ := hshape
  have hbne : b ≠ [] := by
    rw [hb]
    simp
  rw [verify_amount, if_neg hbne]
  dsimp only
  have hfilterb : b.filter isAmountChar = b := by
    rw [List.filter_eq_self]
    intro a ha
    rw [hb] at ha
    rcases List.mem_append.mp ha with hm | hm
    · simp [isAmountChar, List.all_eq_true.mp hip a hm]
    · rcases List.mem_cons.mp hm with rfl | hm'
      · decide
      · simp [isAmountChar, List.all_eq_true.mp hfp a hm']
  rw [hfilterb, if_neg hbne]
  have hnocal : b.any isCalc = false := by
    rw [List.any_eq_false]
    intro a ha
    rw [hb] at ha
    rcases List.mem_append.mp ha with hm | hm
    · simp [isCalc_false_of_isDigit (List.all_eq_true.mp hip a hm)]
    · rcases List.mem_cons.mp hm with rfl | hm'
      · decide
      · simp [isCalc_false_of_isDigit (List.all_eq_true.mp hfp a hm')]
  rw [if_neg (by simp [hnocal])]
  exact amountTail_of_shape hb hip hfp hlen hiplen hv

/-! ## Claim theorems -/

/-- Claim C1, counterexample: double validation is not Accepted-with-unchanged-
buffer for all field kinds. Accepting the amount `"0.004"` rewrites the buffer
to `"0.00"`, which the second call rejects as below zero; accepting the forced
tags buffer `","` rewrites it to the empty string, which the second call
reports as empty rather than Accepted. -/
theorem C1_counterexample :
    verify_amount "0.004".data = (.Accepted .Amount, "0.00".data) ∧
    verify_amount "0.00".data = (.NotAccepted .AmountBelowZero, "0.00".data) ∧
    verify_tags_forced ["food".data] ",".data = (.Accepted .Tags, []) ∧
    verify_tags_forced ["food".data] [] = (.Nothing .Tags, []) := by decide

/-- Claim C1, amended: revalidating an Accepted buffer yields Accepted with an
unchanged buffer for dates, methods and tx types unconditionally; for amounts
whenever the accepted buffer parses to a positive value (the fixup can round an
accepted tiny amount down to `"0.00"`, which is then rejected as below zero);
and for forced tags whenever the accepted buffer is non-empty (a buffer of
separators is accepted as the empty string, which is then reported as empty). -/
theorem C1_amended :
    (∀ s b, verify_date s = (.Accepted .Date, b) → verify_date b = (.Accepted .Date, b)) ∧
    (∀ s b, verify_amount s = (.Accepted .Amount, b) →
      0 < ((parseF b).getD ⟨0, 1⟩).num → verify_amount b = (.Accepted .Amount, b)) ∧
    (∀ ms bm s b, verify_tx_method ms bm s = (.Accepted .TxMethod, b) →
      verify_tx_method ms bm b = (.Accepted .TxMethod, b)) ∧
    (∀ s b, verify_tx_type s = (.Accepted .TxType, b) →
      verify_tx_type b = (.Accepted .TxType, b)) ∧
    (∀ tg s b, verify_tags_forced tg s = (.Accepted .Tags, b) → b ≠ [] →
      verify_tags_forced tg b = (.Accepted .Tags, b)) :=
  ⟨verify_date_idem,
   fun s b h hv => verify_amount_idem s b h hv,
   verify_tx_method_idem,
   verify_tx_type_idem,
   fun tg s b h hb => tags_forced_idem tg s b h hb⟩

/-- Claim C1, witness: one concrete revalidation per field kind, with every
side condition discharged — date `"2022-01-01"`, amount `"3.5"` (accepted as
`"3.50"`, positive), method `"bank"` against store `["Bank"]`, tx type
`"exp"` (accepted as `"Expense"`), forced tags `"food "` against store
`["food"]` (accepted as the non-empty `"food"`). -/
theorem C1_witness :
    verify_date "2022-01-01".data = (.Accepted .Date, "2022-01-01".data) ∧
    verify_amount "3.50".data = (.Accepted .Amount, "3.50".data) ∧
    verify_tx_method ["Bank".data] (fun _ _ => "Bank".data) "Bank".data
      = (.Accepted .TxMethod, "Bank".data) ∧
    verify_tx_type "Expense".data = (.Accepted .TxType, "Expense".data) ∧
    verify_tags_forced ["food".data] "food".data = (.Accepted .Tags, "food".data) :=
  ⟨C1_amended.1 "2022-01-01".data "2022-01-01".data (by decide),
   C1_amended.2.1 "3.5".data "3.50".data (by decide) (by decide),
   C1_amended.2.2.1 ["Bank".data] (fun _ _ => "Bank".data) "bank".data "Bank".data (by decide),
   C1_amended.2.2.2.1 "exp".data "Expense".data (by decide),
   C1_amended.2.2.2.2 ["food".data] "food ".data "food".data (by decide) (by decide)⟩

/-- Claim C2, counterexample: on the buffer `"-5"` the validator does not
return the amount-below-zero rejection the claim describes. -/
theorem C2_counterexample :
    verify_amount "-5".data ≠ (.NotAccepted .AmountBelowZero, "5.00".data) := by decide

/-- Claim C2, amended: calling `verify_amount` on `"-5"` rewrites the buffer
to `"5.00"` but returns the Accepted outcome — the leading minus is consumed
by the expression evaluator as a one-sided operator (the lone `"5"` survives),
so the below-zero branch is never reached. -/
theorem C2_amended :
    verify_amount "-5".data = (.Accepted .Amount, "5.00".data) := by decide

/-- Claim C3, counterexample: on `"food, Food, travel"` with store tags
`["food", "travel"]` the forced tags validator does not accept. -/
theorem C3_counterexample :
    (verify_tags_forced ["food".data, "travel".data] "food, Food, travel".data).1
      ≠ .Accepted .Tags := by decide

/-- Claim C3, amended: the forced tags validator on `"food, Food, travel"`
with store `["food", "travel"]` rewrites the buffer to `"food, travel"` but
returns the Rejected outcome with the non-existing-tag reason, because the
case-sensitively distinct `"Food"` was dropped and the post-filter count (2)
differs from the pre-filter count (3). -/
theorem C3_amended :
    verify_tags_forced ["food".data, "travel".data] "food, Food, travel".data
      = (.NotAccepted .NonExistingTag, "food, travel".data) := by decide

/-- Claim C5: `verify_amount` on `"2+3*4"` evaluates `3*4` first under the
fixed symbol order (the first pass rewrites the working string to
`"2+12.00"`), and the buffer finally becomes `"14.00"` with Accepted. -/
theorem C5_symbol_priority :
    evalPass "2+3*4".data = .ok "2+12.00".data ∧
    verify_amount "2+3*4".data = (.Accepted .Amount, "14.00".data) :=
  ⟨rfl, by decide⟩

/-- Claim C6: stepping `"9999999999.99"` up and `"0.00"` down both return
success and leave the buffer unchanged (clamped, not wrapped). -/
theorem C6_amount_clamp :
    step_amount "9999999999.99".data .StepUp = (none, "9999999999.99".data) ∧
    step_amount "0.00".data .StepDown = (none, "0.00".data) := by decide

/-- Claim C4, counterexample: `"x"` is rejected by tx-type validation, yet
stepping it up succeeds with the buffer set to `"Income"` instead of
performing the cyclic rewrite and returning the InvalidTxType failure. -/
theorem C4_counterexample :
    verify_tx_type "x".data = (.NotAccepted .InvalidTxType, []) ∧
    step_tx_type "x".data .StepUp = (none, "Income".data) ∧
    (step_tx_type "x".data .StepUp).1 ≠ some .InvalidTxType := by decide

/-- Claim C4, amended: for every buffer on which tx-type validation returns
Rejected, stepping in either direction returns success with the buffer set
to `"Income"`: the validator clears a rejected buffer, so the stepper's
empty-buffer default applies and its InvalidTxType branch is unreachable. -/
theorem C4_amended_step_rejected (s : Str) (dir : StepType)
    (h : (verify_tx_type s).1 = .NotAccepted .InvalidTxType) :
    step_tx_type s dir = (none, "Income".data) := by
  rcases verify_tx_type_cases s with hc | hc | hc | hc | hc <;>
    rw [hc] at h <;> simp at h <;> cases dir <;> simp [step_tx_type, hc]

/-- Claim C4, witness for the amended theorem at the rejected buffer `"x"`. -/
theorem C4_witness :
    step_tx_type "x".data .StepUp = (none, "Income".data) :=
  C4_amended_step_rejected "x".data .StepUp (by decide)

/-- Claim C8: for every method buffer that is non-empty after trimming, if
some store entry matches it case-insensitively then the buffer is rewritten
to such an entry's canonical casing with Accepted; otherwise the buffer is
rewritten to the fuzzy-match collaborator's value on the method list with the
invalid-method rejection. -/
theorem C8_verify_tx_method (methods : List Str) (bm : Str → List Str → Str) (s : Str)
    (hne : trimC s ≠ []) :
    ((∃ m ∈ methods, lowerS m = lowerS (trimC s)) →
      ∃ m ∈ methods, lowerS m = lowerS (trimC s) ∧
        verify_tx_method methods bm s = (.Accepted .TxMethod, m)) ∧
    ((∀ m ∈ methods, lowerS m ≠ lowerS (trimC s)) →
      verify_tx_method methods bm s = (.NotAccepted .InvalidTxMethod, bm (trimC s) methods)) := by
  constructor
  · intro hex
    obtain ⟨m, hm⟩ := scanMethods_is_some hex
    obtain ⟨hmem, hl⟩ := scanMethods_mem hm
    exact ⟨m, hmem, hl, by simp [verify_tx_method, hne, hm]⟩
  · intro hall
    have hnone : scanMethods (trimC s) methods = none := by
      cases h : scanMethods (trimC s) methods with
      | none => rfl
      | some m =>
        obtain ⟨hmem, hl⟩ := scanMethods_mem h
        exact absurd hl (hall m hmem)
    simp [verify_tx_method, hne, hnone]

/-- Claim C8, witness: store `["Bank", "Cash"]`, buffer `" bank"` — the match
branch fires and rewrites the buffer to `"Bank"`. -/
theorem C8_witness :
    ∃ m ∈ ["Bank".data, "Cash".data], lowerS m = lowerS (trimC " bank".data) ∧
      verify_tx_method ["Bank".data, "Cash".data] (fun _ _ => "Bank".data) " bank".data
        = (.Accepted .TxMethod, m) :=
  (C8_verify_tx_method ["Bank".data, "Cash".data] (fun _ _ => "Bank".data) " bank".data
    (by decide)).1 ⟨"Bank".data, by decide, by decide⟩

/-- Claim C9: stepping the tx type never returns an error; for every buffer
and direction the result is success and the buffer afterwards is exactly one
of `"Income"`, `"Expense"`, `"Transfer"`. -/
theorem C9_step_tx_type_total (s : Str) (dir : StepType) :
    (step_tx_type s dir).1 = none ∧
    ((step_tx_type s dir).2 = "Income".data ∨ (step_tx_type s dir).2 = "Expense".data ∨
      (step_tx_type s dir).2 = "Transfer".data) := by
  rcases verify_tx_type_cases s with hc | hc | hc | hc | hc <;>
    cases dir <;> simp [step_tx_type, hc] <;> decide

/-- Claim C7: stepping `2022-01-01` down and `2037-12-31` up both return
success and leave the buffer unchanged; on every other accepted date,
stepping moves the buffer to the canonical string of the calendar
successor/predecessor, whose rata-die ordinal differs by exactly one. -/
theorem C7_date_step :
    step_date "2022-01-01".data .StepDown = (none, "2022-01-01".data) ∧
    step_date "2037-12-31".data .StepUp = (none, "2037-12-31".data) ∧
    ∀ s b y m d, verify_date s = (.Accepted .Date, b) → parseDate b = some (y, m, d) →
      ((y, m, d) ≠ (2037, 12, 31) →
        step_date s .StepUp = (none, dateToStr (dateSucc (y, m, d))) ∧
        rataDie (dateSucc (y, m, d)) = rataDie (y, m, d) + 1) ∧
      ((y, m, d) ≠ (2022, 1, 1) →
        step_date s .StepDown = (none, dateToStr (datePred (y, m, d))) ∧
        rataDie (y, m, d) = rataDie (datePred (y, m, d)) + 1) := by
  refine ⟨by decide, by decide, ?_⟩
  intro s b y m d hver hp
  obtain ⟨hcore, hbf⟩ := verify_date_accept hver
  have hp2 : parseDate (s.filter isDateChar) = some (y, m, d) := by rw [← hbf]; exact hp
  obtain ⟨hy1, hy2⟩ := (dateCore_accept_facts hcore).2 y m d hp2
  obtain ⟨hm1, hm2, hd1, hd2⟩ := parseDate_val hp
  have hdim31 : daysInMonth y m ≤ 31 := by
    unfold daysInMonth
    split_ifs <;> omega
  have e1 : 2022 + (y - 2022) = y := by omega
  have e2 : m - 1 + 1 = m := by omega
  have e3 : d - 1 + 1 = d := by omega
  constructor
  · intro hne
    constructor
    · unfold step_date
      rw [hver]
      dsimp only
      rw [hp, Option.getD_some, if_pos hne]
    · have haux := rataDie_succ_aux (y - 2022) (by omega) (m - 1) (by omega) (d - 1)
        (by omega) (by rw [e1, e2, e3]; exact hd2)
      rw [e1, e2, e3] at haux
      exact haux
  · intro hne
    constructor
    · unfold step_date
      rw [hver]
      dsimp only
      rw [hp, Option.getD_some, if_pos hne]
    · have haux := rataDie_pred_aux (y - 2022) (by omega) (m - 1) (by omega) (d - 1)
        (by omega) (by rw [e1, e2, e3]; exact hd2)
      rw [e1, e2, e3] at haux
      exact haux

/-- Claim C7, witness: the non-boundary date `2025-02-28` steps up to
`2025-03-01`, one rata-die day later. -/
theorem C7_witness :
    step_date "2025-02-28".data .StepUp = (none, dateToStr (dateSucc (2025, 2, 28))) ∧
    rataDie (dateSucc (2025, 2, 28)) = rataDie (2025, 2, 28) + 1 :=
  (C7_date_step.2.2 "2025-02-28".data "2025-02-28".data 2025 2 28
    (by decide) (by decide)).1 (by decide)

/-- Claim C10: the plain tags normalizer is idempotent — for every buffer,
applying `verify_tags` twice gives the same buffer as applying it once. -/
theorem C10_tags_idempotent (s : Str) : verify_tags (verify_tags s) = verify_tags s := by
  unfold verify_tags
  have hgood : ∀ t ∈ dedupSeen [] (tagTokens s), goodTok t := fun t ht =>
    tagTokens_good s t (dedupSeen_subset t ht)
  rw [tagTokens_join hgood,
    dedupSeen_of_nodup (dedupSeen_nodup [] (tagTokens s)) [] (by simp)]

end Rex
